import Mathlib

/-!
# Cache-key derivation of the rate limiter (`src/limiter/cache_key.go`)

A shallow embedding of the cache-key generators and of the hash strategies,
followed by the properties of the key they build.

Conventions of the embedding

* A Go `string` or `[]byte` is a list of bytes (`GoString`).
* An `int64` is an `Int`; every arithmetic operation wraps its exact result
  into the 64-bit range (`wrapInt64`).
* A Go pointer that may be `nil` is an `Option`.
* A run-time fault (nil dereference, integer division by zero) is the result
  `none`; a function that writes to a buffer before it faults returns the buffer
  as it left it together with a flag.
* `bytes.Buffer` is its unread contents; `sync.Pool` is the list of buffers it
  holds, threaded through the calls as explicit state.
-/

/-- A Go `string` or `[]byte`: a finite sequence of bytes. -/
abbrev GoString := List UInt8

/-- The bytes Go stores for a string literal (its UTF-8 encoding). -/
def goStr (s : String) : GoString := s.data.flatMap String.utf8EncodeChar

/-- Membership in the range of `int64`. -/
def isInt64 (x : Int) : Prop := -(2 : Int) ^ 63 ≤ x ∧ x < (2 : Int) ^ 63

instance (x : Int) : Decidable (isInt64 x) := by
  unfold isInt64; exact inferInstance

/-- Two's-complement wrap of an exact integer into the range of `int64`. -/
def wrapInt64 (x : Int) : Int := (x + (2 : Int) ^ 63) % (2 : Int) ^ 64 - (2 : Int) ^ 63

/-- Go `a / b` on `int64`: faults when `b = 0`, otherwise the quotient truncated
toward zero, wrapped. -/
def divInt64 (a b : Int) : Option Int :=
  if b = 0 then none else some (wrapInt64 (Int.tdiv a b))

/-- Go `a * b` on `int64`: the product, wrapped. -/
def mulInt64 (a b : Int) : Int := wrapInt64 (a * b)

namespace strconv

/-- The ASCII digit of `n % 10`. -/
def digitByte (n : Nat) : UInt8 := UInt8.ofNat (48 + n % 10)

/-- Decimal digits of `u`, most significant first; `fuel` bounds the number of
digits produced. -/
def formatDigits : Nat → Nat → GoString
  | 0, _ => []
  | fuel + 1, u =>
    if u < 10 then [digitByte u] else formatDigits fuel (u / 10) ++ [digitByte u]

/-- Decimal rendering of an unsigned magnitude (`u + 1` digits always suffice). -/
def formatUint (u : Nat) : GoString := formatDigits (u + 1) u

/-- Go `strconv.FormatInt(i, 10)`: a minus sign for a negative number, then the
decimal digits of its magnitude. -/
def FormatInt (i : Int) : GoString :=
  if i < 0 then 45 :: formatUint i.natAbs else formatUint i.natAbs

/-- The number a string of decimal digits denotes (statement-side inverse of
`formatUint`). -/
def decimalValue (s : GoString) : Nat :=
  s.foldl (fun acc c => acc * 10 + (c.toNat - 48)) 0

end strconv

namespace hex

/-- One character of the table `"0123456789abcdef"`. -/
def hexDigit (n : Nat) : UInt8 :=
  if n % 16 < 10 then UInt8.ofNat (48 + n % 16) else UInt8.ofNat (87 + n % 16)

/-- Go `hex.EncodeToString`: two lowercase hexadecimal characters for each byte,
high nibble first. -/
def EncodeToString (src : GoString) : GoString :=
  src.flatMap (fun v => [hexDigit (v.toNat >>> 4), hexDigit (v.toNat &&& 15)])

/-- A lowercase hexadecimal character: `0`..`9` or `a`..`f`. A statement-side
definition. -/
def isLowerHex (c : UInt8) : Prop :=
  (48 ≤ c.toNat ∧ c.toNat ≤ 57) ∨ (97 ≤ c.toNat ∧ c.toNat ≤ 102)

instance (c : UInt8) : Decidable (isLowerHex c) := by
  unfold isLowerHex; exact inferInstance

/-- The value of a hexadecimal character (statement-side inverse of
`hexDigit`). -/
def hexValue (c : UInt8) : Nat :=
  if c.toNat < 58 then c.toNat - 48 else c.toNat - 87

end hex

namespace binary

/-- Go `binary.LittleEndian.PutUint64(b, v)` on a slice of at least 8 bytes: the
first 8 bytes become those of `v`, least significant first. -/
def LittleEndian.PutUint64 (b : GoString) (v : Nat) : GoString :=
  [UInt8.ofNat v, UInt8.ofNat (v >>> 8), UInt8.ofNat (v >>> 16), UInt8.ofNat (v >>> 24),
   UInt8.ofNat (v >>> 32), UInt8.ofNat (v >>> 40), UInt8.ofNat (v >>> 48),
   UInt8.ofNat (v >>> 56)] ++ b.drop 8

/-- The 8 bytes of a 64-bit value in little-endian order, as the words say it:
byte number `i` is `v / 256 ^ i` modulo 256. A statement-side definition,
compared below with what `PutUint64` writes. -/
def littleEndianBytes (v : Nat) : GoString :=
  (List.range 8).map (fun i => UInt8.ofNat (v / 256 ^ i))

end binary

namespace crc32

/-- The state of Go's `crc32` digest: the running checksum (a `uint32`). -/
structure digest where
  crc : Nat
deriving DecidableEq, Repr

/-- Go `crc32.NewIEEE()`: a digest that has consumed nothing, checksum 0. -/
def NewIEEE : digest := ⟨0⟩

/-- Go `d.Sum32()`. -/
def digest.Sum32 (d : digest) : Nat := d.crc

/-- Go `d.Sum(in)`: appends the four bytes of the current checksum, most significant
first, to `in`; the digest is not changed and `in` is not consumed. -/
def digest.Sum (d : digest) (input : GoString) : GoString :=
  let s := d.Sum32
  input ++ [UInt8.ofNat (s >>> 24), UInt8.ofNat (s >>> 16), UInt8.ofNat (s >>> 8), UInt8.ofNat s]

end crc32

namespace fnv

/-- The 128-bit FNV offset basis. -/
def offset128 : Nat := 0x6c62272e07bb014262b821756295c58d

/-- The 128-bit FNV prime, `2^88 + 0x13b`. -/
def prime128 : Nat := 2 ^ 88 + 0x13b

/-- The state of Go's `fnv` 128-bit digest, as one 128-bit number. -/
structure sum128 where
  s : Nat
deriving DecidableEq, Repr

/-- Go `fnv.New128()`. -/
def New128 : sum128 := ⟨offset128⟩

/-- Go `h.Write(data)`: FNV-1, for each byte multiply by the prime modulo `2^128`,
then xor the byte in. -/
def sum128.Write (h : sum128) (data : GoString) : sum128 :=
  data.foldl (fun st c => ⟨(st.s * prime128 % 2 ^ 128) ^^^ c.toNat⟩) h

/-- Go `h.Sum(in)`: appends the 16 bytes of the state, most significant first. -/
def sum128.Sum (h : sum128) (input : GoString) : GoString :=
  input ++ (List.range 16).map (fun i => UInt8.ofNat (h.s >>> (8 * (15 - i))))

end fnv

namespace bytes

/-- Go `bytes.Buffer`, as its unread contents. -/
structure Buffer where
  contents : GoString
deriving DecidableEq, Repr

/-- Go `new(bytes.Buffer)`: the empty buffer. -/
def Buffer.new : Buffer := ⟨[]⟩

/-- Go `b.Reset()`: the buffer becomes empty. -/
def Buffer.Reset (_b : Buffer) : Buffer := ⟨[]⟩

/-- Go `b.WriteString(s)`: appends the bytes of `s`. -/
def Buffer.WriteString (b : Buffer) (s : GoString) : Buffer := ⟨b.contents ++ s⟩

/-- Go `b.WriteByte(c)`: appends one byte. -/
def Buffer.WriteByte (b : Buffer) (c : UInt8) : Buffer := ⟨b.contents ++ [c]⟩

/-- Go `b.String()`: the contents as a string. -/
def Buffer.String (b : Buffer) : GoString := b.contents

/-- Go `b.Bytes()`: the contents as a byte slice. -/
def Buffer.Bytes (b : Buffer) : GoString := b.contents

/-- Go `b.Len()`: the number of bytes held. -/
def Buffer.Len (b : Buffer) : Nat := b.contents.length

end bytes

namespace sync

/-- Go `sync.Pool` of `*bytes.Buffer` with `New = new(bytes.Buffer)`: the buffers
it currently holds, in whatever state they were put back. -/
structure Pool where
  items : List bytes.Buffer
deriving DecidableEq, Repr

/-- Go `p.Get()`: a held buffer when there is one, a new one otherwise. -/
def Pool.Get (p : Pool) : bytes.Buffer × Pool :=
  match p.items with
  | [] => (bytes.Buffer.new, p)
  | b :: rest => (b, ⟨rest⟩)

/-- Go `p.Put(b)`: hands the buffer back, contents untouched. -/
def Pool.Put (p : Pool) (b : bytes.Buffer) : Pool := ⟨b :: p.items⟩

end sync

namespace pb

/-- The protobuf enum `RateLimitResponse_RateLimit_Unit` (an `int32`). -/
abbrev RateLimitResponse_RateLimit_Unit := Int

/-- The values of the enum that the protobuf definition names. -/
def RateLimitResponse_RateLimit_UNKNOWN : RateLimitResponse_RateLimit_Unit := 0
def RateLimitResponse_RateLimit_SECOND : RateLimitResponse_RateLimit_Unit := 1
def RateLimitResponse_RateLimit_MINUTE : RateLimitResponse_RateLimit_Unit := 2
def RateLimitResponse_RateLimit_HOUR : RateLimitResponse_RateLimit_Unit := 3
def RateLimitResponse_RateLimit_DAY : RateLimitResponse_RateLimit_Unit := 4

/-- The protobuf message `RateLimitResponse_RateLimit`. -/
structure RateLimitResponse_RateLimit where
  RequestsPerUnit : Nat
  Unit : RateLimitResponse_RateLimit_Unit
deriving DecidableEq, Repr

end pb

namespace pb_struct

/-- The protobuf message `RateLimitDescriptor_Entry`. -/
structure RateLimitDescriptor_Entry where
  Key : GoString
  Value : GoString
deriving DecidableEq, Repr

/-- The protobuf message `RateLimitDescriptor`: its entries (a slice of pointers,
each possibly `nil`) and, in `rest`, whatever else the message carries. -/
structure RateLimitDescriptor (Rest : Type) where
  Entries : List (Option RateLimitDescriptor_Entry)
  rest : Rest

end pb_struct

namespace config

/-- The wrapper `config.RateLimit` (`src/config/config.go`); the type of `Stats`
is declared in a package that is not part of the sources at hand. -/
structure RateLimit (Stats : Type) where
  FullKey : GoString
  Stats : Stats
  Limit : Option pb.RateLimitResponse_RateLimit
  Unlimited : Bool
  ShadowMode : Bool
  Name : GoString
  Replaces : List GoString

end config

namespace utils

/-- Modelled from the spec: `utils.UnitToDivider`, whose source file is missing.
The spec gives "the number of seconds in the limit's unit (1 for second, 60 for
minute, etc.)" for the units second, minute, hour and day. For any other unit the
spec gives no number; the model returns 0, a divider on which the caller's
division faults. The generators below take the function as a parameter; this
definition instantiates it on concrete inputs. -/
def UnitToDivider (unit : pb.RateLimitResponse_RateLimit_Unit) : Int :=
  if unit = pb.RateLimitResponse_RateLimit_SECOND then 1
  else if unit = pb.RateLimitResponse_RateLimit_MINUTE then 60
  else if unit = pb.RateLimitResponse_RateLimit_HOUR then 60 * 60
  else if unit = pb.RateLimitResponse_RateLimit_DAY then 60 * 60 * 24
  else 0

end utils

namespace limiter

open bytes sync pb pb_struct config

/-- The result type `CacheKey`. -/
structure CacheKey where
  Key : GoString
  PerSecond : Bool
deriving DecidableEq, Repr

/-- The function `isPerSecondLimit`. -/
def isPerSecondLimit (unit : RateLimitResponse_RateLimit_Unit) : Bool :=
  unit == RateLimitResponse_RateLimit_SECOND

/-- The type of `utils.UnitToDivider`. -/
abbrev Divider := RateLimitResponse_RateLimit_Unit → Int

/-- The struct `humanReadableCacheKeyGenerator`; the Go field `prefix` is `pfx`. -/
structure humanReadableCacheKeyGenerator where
  pfx : GoString
  bufferPool : Pool
deriving DecidableEq, Repr

/-- The function `NewHumanReadableCacheKeyGenerator`. -/
def NewHumanReadableCacheKeyGenerator (pfx : GoString) : humanReadableCacheKeyGenerator :=
  { pfx := pfx, bufferPool := ⟨[]⟩ }

/-- The loop `for _, entry := range descriptor.Entries` of
`makeHumanReadableCacheKey`; a `nil` entry faults at `entry.Key`, after the
entries before it were written. -/
def writeEntries : List (Option RateLimitDescriptor_Entry) → Buffer → Buffer × Bool
  | [], b => (b, true)
  | none :: _, b => (b, false)
  | some entry :: rest, b =>
    let b := b.WriteString entry.Key
    let b := b.WriteByte 95
    let b := b.WriteString entry.Value
    let b := b.WriteByte 95
    writeEntries rest b

/-- The function `makeHumanReadableCacheKey`: the buffer after the call, and whether the call
returned (`true`) or faulted (`false`). -/
def makeHumanReadableCacheKey {Stats Rest : Type} (UnitToDivider : Divider) (b : Buffer)
    (pfx domain : GoString) (descriptor : Option (RateLimitDescriptor Rest))
    (limit : Option (RateLimit Stats)) (now : Int) : Buffer × Bool :=
  let b := b.WriteString pfx
  let b := b.WriteString domain
  let b := b.WriteByte 95
  match descriptor with
  | none => (b, false)
  | some d =>
    match writeEntries d.Entries b with
    | (b, false) => (b, false)
    | (b, true) =>
      match limit with
      | none => (b, false)
      | some l =>
        match l.Limit with
        | none => (b, false)
        | some rl =>
          let divider := UnitToDivider rl.Unit
          match divInt64 now divider with
          | none => (b, false)
          | some q => (b.WriteString (strconv.FormatInt (mulInt64 q divider)), true)

/-- The method `(*humanReadableCacheKeyGenerator).GenerateCacheKey`: the key
returned (`none` when the call faults) and the generator afterwards (the
deferred `Put` runs on every path that took a buffer). -/
def humanReadableCacheKeyGenerator.GenerateCacheKey {Stats Rest : Type}
    (UnitToDivider : Divider) (g : humanReadableCacheKeyGenerator) (domain : GoString)
    (descriptor : Option (RateLimitDescriptor Rest)) (limit : Option (RateLimit Stats))
    (now : Int) : Option CacheKey × humanReadableCacheKeyGenerator :=
  match limit with
  | none => (some { Key := [], PerSecond := false }, g)
  | some l =>
    let (b, pool) := g.bufferPool.Get
    let b := b.Reset
    match makeHumanReadableCacheKey UnitToDivider b g.pfx domain descriptor limit now with
    | (b, false) => (none, { g with bufferPool := pool.Put b })
    | (b, true) =>
      match l.Limit with
      | none => (none, { g with bufferPool := pool.Put b })
      | some rl =>
        (some { Key := b.String, PerSecond := isPerSecondLimit rl.Unit },
          { g with bufferPool := pool.Put b })

/-- The struct `hashCacheKeyGenerator`; the Go field `prefix` is `pfx`. -/
structure hashCacheKeyGenerator where
  pfx : GoString
  bufferPool : Pool
  hash : Buffer → GoString

/-- The function `NewHashCacheKeyGenerator`. -/
def NewHashCacheKeyGenerator (pfx : GoString) (hash : Buffer → GoString) :
    hashCacheKeyGenerator :=
  { pfx := pfx, bufferPool := ⟨[]⟩, hash := hash }

/-- The method `(*hashCacheKeyGenerator).GenerateCacheKey`. -/
def hashCacheKeyGenerator.GenerateCacheKey {Stats Rest : Type}
    (UnitToDivider : Divider) (g : hashCacheKeyGenerator) (domain : GoString)
    (descriptor : Option (RateLimitDescriptor Rest)) (limit : Option (RateLimit Stats))
    (now : Int) : Option CacheKey × hashCacheKeyGenerator :=
  match limit with
  | none => (some { Key := [], PerSecond := false }, g)
  | some l =>
    let (b, pool) := g.bufferPool.Get
    let b := b.Reset
    match makeHumanReadableCacheKey UnitToDivider b g.pfx domain descriptor limit now with
    | (b, false) => (none, { g with bufferPool := pool.Put b })
    | (b, true) =>
      match l.Limit with
      | none => (none, { g with bufferPool := pool.Put b })
      | some rl =>
        (some { Key := g.hash b, PerSecond := isPerSecondLimit rl.Unit },
          { g with bufferPool := pool.Put b })

/-- The function `MurMurHash3`; `Sum128` stands for `mmh3.Sum128` of the library
`github.com/reusee/mmh3`. -/
def MurMurHash3 (Sum128 : GoString → GoString) (b : Buffer) : GoString :=
  hex.EncodeToString (Sum128 b.Bytes)

/-- The function `CityHash`; `CityHash128Bytes s n` stands for `cityhash.CityHash128(s, n).Bytes()`
of the library `github.com/zentures/cityhash`. The length is converted to
`uint32`. -/
def CityHash (CityHash128Bytes : GoString → Nat → GoString) (b : Buffer) : GoString :=
  hex.EncodeToString (CityHash128Bytes b.Bytes (b.Len % 2 ^ 32))

/-- The function `FarmHash`; `Hash128` stands for `farm.Hash128` of the library
`github.com/dgryski/go-farm`, returning the two 64-bit halves `(lo, hi)`. -/
def FarmHash (Hash128 : GoString → Nat × Nat) (b : Buffer) : GoString :=
  let (lo, hi) := Hash128 b.Bytes
  let x : GoString := List.replicate 16 0
  let x := binary.LittleEndian.PutUint64 x lo
  let x := x.take 8 ++ binary.LittleEndian.PutUint64 (x.drop 8) hi
  hex.EncodeToString x

/-- The function `CRC32Hash`. -/
def CRC32Hash (b : Buffer) : GoString :=
  hex.EncodeToString (crc32.NewIEEE.Sum b.Bytes)

/-- The function `FNVHash`. -/
def FNVHash (b : Buffer) : GoString :=
  let x := fnv.New128
  let x := x.Write b.Bytes
  hex.EncodeToString (x.Sum [])

/-- The bytes one entry contributes to the key: its key, a separator, its value,
a separator. A statement-side definition. -/
def entryBytes (e : RateLimitDescriptor_Entry) : GoString :=
  e.Key ++ [95] ++ e.Value ++ [95]

/-- An entry whose key and value are free of the separator byte `_`. -/
def sepFree (e : RateLimitDescriptor_Entry) : Prop :=
  (95 : UInt8) ∉ e.Key ∧ (95 : UInt8) ∉ e.Value

instance (e : RateLimitDescriptor_Entry) : Decidable (sepFree e) := by
  unfold sepFree; exact inferInstance

/-- The human-readable key as the specification words it: the configured
starting string, the domain, a separator, each entry's key and value in input
order each followed by a separator, and the decimal rendering of the time bucket.
A statement-side definition, compared below with what the code builds. -/
def specKey (pfx domain : GoString) (entries : List RateLimitDescriptor_Entry)
    (bucket : Int) : GoString :=
  pfx ++ domain ++ [95] ++ entries.flatMap entryBytes ++ strconv.FormatInt bucket

/-- A descriptor (not `nil`) none of whose entries is `nil`. -/
def descriptorOf {Rest : Type} (entries : List RateLimitDescriptor_Entry) (rest : Rest) :
    Option (RateLimitDescriptor Rest) :=
  some { Entries := entries.map some, rest := rest }

/-- A limit as `BenchmarkCacheKeyGenerator` builds it: only the protobuf limit is
set. Used to evaluate the generators on concrete inputs. -/
def limitConfig (requestsPerUnit : Nat) (unit : RateLimitResponse_RateLimit_Unit) :
    RateLimit Unit :=
  { FullKey := [], Stats := (), Limit := some ⟨requestsPerUnit, unit⟩,
    Unlimited := false, ShadowMode := false, Name := [], Replaces := [] }

/-- The arguments of one call of `GenerateCacheKey`. -/
structure Call (Stats Rest : Type) where
  domain : GoString
  descriptor : Option (RateLimitDescriptor Rest)
  limit : Option (RateLimit Stats)
  now : Int

/-- The generator after a sequence of calls of `GenerateCacheKey`, results
dropped. -/
def humanReadableCacheKeyGenerator.after {Stats Rest : Type} (UnitToDivider : Divider)
    (g : humanReadableCacheKeyGenerator) (calls : List (Call Stats Rest)) :
    humanReadableCacheKeyGenerator :=
  calls.foldl
    (fun g c => (g.GenerateCacheKey UnitToDivider c.domain c.descriptor c.limit c.now).2) g

/-- The hash generator after a sequence of calls of `GenerateCacheKey`, results
dropped. -/
def hashCacheKeyGenerator.after {Stats Rest : Type} (UnitToDivider : Divider)
    (g : hashCacheKeyGenerator) (calls : List (Call Stats Rest)) : hashCacheKeyGenerator :=
  calls.foldl
    (fun g c => (g.GenerateCacheKey UnitToDivider c.domain c.descriptor c.limit c.now).2) g

end limiter

/-! ## Arithmetic of the time bucket -/

theorem wrapInt64_of_isInt64 {x : Int} (h : isInt64 x) : wrapInt64 x = x := by
  unfold isInt64 at h
  unfold wrapInt64
  norm_num at h ⊢
  omega

theorem tdiv_bounds_nonneg {a d : Int} (ha : 0 ≤ a) (hd : 1 ≤ d) :
    0 ≤ Int.tdiv a d ∧ Int.tdiv a d ≤ a ∧ 0 ≤ Int.tdiv a d * d ∧ Int.tdiv a d * d ≤ a := by
  have hq : Int.tdiv a d = a / d := Int.tdiv_eq_ediv ha (by omega)
  have h0 : 0 ≤ a / d := Int.ediv_nonneg ha (by omega)
  have h1 : a / d * d ≤ a := Int.ediv_mul_le a (by omega)
  have h2 : a / d ≤ a / d * d := by nlinarith
  rw [hq]
  refine ⟨h0, by omega, by positivity, h1⟩

theorem tdiv_bounds_neg {a d : Int} (ha : a ≤ 0) (hd : 1 ≤ d) :
    a ≤ Int.tdiv a d ∧ Int.tdiv a d ≤ 0 ∧ a ≤ Int.tdiv a d * d ∧ Int.tdiv a d * d ≤ 0 := by
  have h := tdiv_bounds_nonneg (a := -a) (by omega) hd
  rw [Int.neg_tdiv] at h
  obtain ⟨h1, h2, h3, h4⟩ := h
  rw [Int.neg_mul] at h3 h4
  omega

theorem isInt64_tdiv {a d : Int} (ha : isInt64 a) (hd : 1 ≤ d) :
    isInt64 (Int.tdiv a d) ∧ isInt64 (Int.tdiv a d * d) := by
  unfold isInt64 at *
  rcases le_total 0 a with h | h
  · have := tdiv_bounds_nonneg h hd
    constructor <;> constructor <;> omega
  · have := tdiv_bounds_neg h hd
    constructor <;> constructor <;> omega

/-- The bucket arithmetic of `makeHumanReadableCacheKey` is exact on `int64`
times and positive dividers. -/
theorem bucket_exact {now d : Int} (hn : isInt64 now) (hd : 1 ≤ d) :
    divInt64 now d = some (Int.tdiv now d) ∧
    mulInt64 (Int.tdiv now d) d = Int.tdiv now d * d := by
  have h := isInt64_tdiv hn hd
  constructor
  · unfold divInt64
    rw [if_neg (by omega), wrapInt64_of_isInt64 h.1]
  · unfold mulInt64
    exact wrapInt64_of_isInt64 h.2

/-! ## Decimal rendering -/

namespace strconv

theorem digitByte_toNat (n : Nat) : (digitByte n).toNat = 48 + n % 10 := by
  show (48 + n % 10) % 256 = 48 + n % 10
  omega

theorem decimalValue_append_singleton (s : GoString) (c : UInt8) :
    decimalValue (s ++ [c]) = decimalValue s * 10 + (c.toNat - 48) := by
  simp [decimalValue, List.foldl_append]

theorem decimalValue_formatDigits (fuel : Nat) :
    ∀ u, u < 10 ^ fuel → decimalValue (formatDigits fuel u) = u := by
  induction fuel with
  | zero => intro u hu; simp at hu; subst hu; rfl
  | succ n ih =>
    intro u hu
    unfold formatDigits
    split
    · next h =>
      simp [decimalValue, digitByte_toNat]
      omega
    · next h =>
      rw [decimalValue_append_singleton, ih (u / 10) (by rw [pow_succ] at hu; omega),
        digitByte_toNat]
      omega

theorem decimalValue_formatUint (u : Nat) : decimalValue (formatUint u) = u := by
  apply decimalValue_formatDigits
  calc u < 10 ^ u := Nat.lt_pow_self (by norm_num) u
    _ ≤ 10 ^ (u + 1) := Nat.pow_le_pow_right (by norm_num) (by omega)

theorem formatUint_injective {u v : Nat} (h : formatUint u = formatUint v) : u = v := by
  have := congrArg decimalValue h
  rwa [decimalValue_formatUint, decimalValue_formatUint] at this

theorem formatDigits_digits (fuel : Nat) :
    ∀ u, ∀ c ∈ formatDigits fuel u, 48 ≤ c.toNat ∧ c.toNat ≤ 57 := by
  induction fuel with
  | zero => intro u c hc; simp [formatDigits] at hc
  | succ n ih =>
    intro u c hc
    unfold formatDigits at hc
    split at hc
    · simp at hc; subst hc; rw [digitByte_toNat]; omega
    · simp at hc
      rcases hc with hc | hc
      · exact ih _ c hc
      · subst hc; rw [digitByte_toNat]; omega

theorem formatUint_ne_nil (u : Nat) : formatUint u ≠ [] := by
  unfold formatUint formatDigits
  split <;> simp

/-- Every byte of a rendered number is the minus sign or a decimal digit. -/
theorem FormatInt_bytes (i : Int) :
    ∀ c ∈ FormatInt i, c = 45 ∨ (48 ≤ c.toNat ∧ c.toNat ≤ 57) := by
  intro c hc
  unfold FormatInt at hc
  split at hc
  · simp at hc
    rcases hc with hc | hc
    · exact Or.inl hc
    · exact Or.inr (formatDigits_digits _ _ c hc)
  · exact Or.inr (formatDigits_digits _ _ c hc)

/-- A rendered number holds no separator byte `_`. -/
theorem FormatInt_no_sep (i : Int) : (95 : UInt8) ∉ FormatInt i := by
  intro h
  rcases FormatInt_bytes i 95 h with h | h
  · exact absurd h (by decide)
  · have : (95 : UInt8).toNat = 95 := rfl
    omega

theorem FormatInt_ne_nil (i : Int) : FormatInt i ≠ [] := by
  unfold FormatInt
  split
  · simp
  · exact formatUint_ne_nil _

/-- The decimal rendering determines the number. -/
theorem FormatInt_injective {i j : Int} (h : FormatInt i = FormatInt j) : i = j := by
  have hd : ∀ u : Nat, ∀ t, formatUint u ≠ 45 :: t := by
    intro u t hu
    have := formatDigits_digits (u + 1) u 45 (by
      show (45 : UInt8) ∈ formatUint u
      rw [hu]; simp)
    have h45 : (45 : UInt8).toNat = 45 := rfl
    omega
  unfold FormatInt at h
  split at h <;> split at h
  · have := formatUint_injective (List.cons_injective h)
    omega
  · exact absurd h.symm (hd _ _)
  · exact absurd h (hd _ _)
  · have := formatUint_injective h
    omega

end strconv

/-! ## What the generators compute -/

namespace limiter

open bytes sync pb pb_struct config

/-- The bytes the entries of a descriptor contribute to the key. -/
theorem writeEntries_some (entries : List RateLimitDescriptor_Entry) :
    ∀ b : Buffer, writeEntries (entries.map some) b =
      (⟨b.contents ++ entries.flatMap entryBytes⟩, true) := by
  induction entries with
  | nil => intro b; simp [writeEntries]
  | cons e es ih =>
    intro b
    simp only [List.map_cons, writeEntries, ih, Buffer.WriteString, Buffer.WriteByte,
      List.flatMap_cons, entryBytes, List.append_assoc]

/-- Closed form of `makeHumanReadableCacheKey` on a descriptor without `nil`
entries, a limit that carries its protobuf limit, and a nonzero divider. -/
theorem makeHumanReadableCacheKey_eq {Stats Rest : Type} (U : Divider) (b : Buffer)
    (pfx domain : GoString) (entries : List RateLimitDescriptor_Entry) (rest : Rest)
    (l : RateLimit Stats) (rl : RateLimitResponse_RateLimit) (now : Int)
    (hl : l.Limit = some rl) (hd : U rl.Unit ≠ 0) :
    makeHumanReadableCacheKey U b pfx domain (descriptorOf entries rest) (some l) now =
      (⟨b.contents ++ specKey pfx domain entries
          (mulInt64 (wrapInt64 (Int.tdiv now (U rl.Unit))) (U rl.Unit))⟩, true) := by
  simp only [makeHumanReadableCacheKey, descriptorOf, writeEntries_some, hl, divInt64,
    if_neg hd, Buffer.WriteString, Buffer.WriteByte, specKey, List.append_assoc]

/-- Closed form of the human-readable generator on the same inputs. -/
theorem humanReadable_eq {Stats Rest : Type} (U : Divider)
    (g : humanReadableCacheKeyGenerator) (domain : GoString)
    (entries : List RateLimitDescriptor_Entry) (rest : Rest)
    (l : RateLimit Stats) (rl : RateLimitResponse_RateLimit) (now : Int)
    (hl : l.Limit = some rl) (hd : U rl.Unit ≠ 0) :
    (g.GenerateCacheKey U domain (descriptorOf entries rest) (some l) now).1 =
      some { Key := specKey g.pfx domain entries
               (mulInt64 (wrapInt64 (Int.tdiv now (U rl.Unit))) (U rl.Unit)),
             PerSecond := isPerSecondLimit rl.Unit } := by
  simp only [humanReadableCacheKeyGenerator.GenerateCacheKey, Buffer.Reset,
    makeHumanReadableCacheKey_eq U _ _ _ _ _ _ _ _ hl hd, hl, Buffer.String, List.nil_append]

/-- Closed form of the hash generator on the same inputs. -/
theorem hash_eq {Stats Rest : Type} (U : Divider)
    (g : hashCacheKeyGenerator) (domain : GoString)
    (entries : List RateLimitDescriptor_Entry) (rest : Rest)
    (l : RateLimit Stats) (rl : RateLimitResponse_RateLimit) (now : Int)
    (hl : l.Limit = some rl) (hd : U rl.Unit ≠ 0) :
    (g.GenerateCacheKey U domain (descriptorOf entries rest) (some l) now).1 =
      some { Key := g.hash ⟨specKey g.pfx domain entries
               (mulInt64 (wrapInt64 (Int.tdiv now (U rl.Unit))) (U rl.Unit))⟩,
             PerSecond := isPerSecondLimit rl.Unit } := by
  simp only [hashCacheKeyGenerator.GenerateCacheKey, Buffer.Reset,
    makeHumanReadableCacheKey_eq U _ _ _ _ _ _ _ _ hl hd, hl, List.nil_append]

/-- The wrapped bucket is the exact one for an `int64` time and a positive
divider. -/
theorem bucket_eq {now d : Int} (hn : isInt64 now) (hd : 1 ≤ d) :
    mulInt64 (wrapInt64 (Int.tdiv now d)) d = Int.tdiv now d * d := by
  rw [wrapInt64_of_isInt64 (isInt64_tdiv hn hd).1]
  exact (bucket_exact hn hd).2

end limiter

namespace limiter

open bytes sync pb pb_struct config

/-- The loop over the entries only appends to the buffer. -/
theorem writeEntries_extends (es : List (Option RateLimitDescriptor_Entry)) :
    ∀ b : Buffer, ∃ s, (writeEntries es b).1.contents = b.contents ++ s := by
  induction es with
  | nil => intro b; exact ⟨[], by simp [writeEntries]⟩
  | cons e es ih =>
    intro b
    cases e with
    | none => exact ⟨[], by simp [writeEntries]⟩
    | some e =>
      obtain ⟨s, hs⟩ := ih ((((b.WriteString e.Key).WriteByte 95).WriteString e.Value).WriteByte 95)
      refine ⟨e.Key ++ [95] ++ e.Value ++ [95] ++ s, ?_⟩
      simp only [writeEntries]
      rw [hs]
      simp only [Buffer.WriteString, Buffer.WriteByte, List.append_assoc]

/-- Whatever the inputs, and whether the call returns or faults, the buffer ends
up holding at least the separator written after the domain. -/
theorem makeHumanReadableCacheKey_contents_ne_nil {Stats Rest : Type} (U : Divider)
    (b : Buffer) (pfx domain : GoString) (descriptor : Option (RateLimitDescriptor Rest))
    (limit : Option (RateLimit Stats)) (now : Int) :
    (makeHumanReadableCacheKey U b pfx domain descriptor limit now).1.contents ≠ [] := by
  have key : ∃ s, (makeHumanReadableCacheKey U b pfx domain descriptor limit now).1.contents
      = b.contents ++ pfx ++ domain ++ [95] ++ s := by
    unfold makeHumanReadableCacheKey
    cases descriptor with
    | none => exact ⟨[], by simp [Buffer.WriteString, Buffer.WriteByte]⟩
    | some d =>
      obtain ⟨s, hs⟩ := writeEntries_extends d.Entries
        (((b.WriteString pfx).WriteString domain).WriteByte 95)
      simp only
      rcases hw : writeEntries d.Entries (((b.WriteString pfx).WriteString domain).WriteByte 95)
        with ⟨b1, ok⟩
      rw [hw] at hs
      simp only [Buffer.WriteString, Buffer.WriteByte] at hs
      cases ok with
      | false => exact ⟨s, by simpa using hs⟩
      | true =>
        cases limit with
        | none => exact ⟨s, by simpa using hs⟩
        | some l =>
          simp only
          cases l.Limit with
          | none => exact ⟨s, by simpa using hs⟩
          | some rl =>
            simp only
            cases divInt64 now (U rl.Unit) with
            | none => exact ⟨s, by simpa using hs⟩
            | some q =>
              refine ⟨s ++ strconv.FormatInt (mulInt64 q (U rl.Unit)), ?_⟩
              simp only [Buffer.WriteString] at hs ⊢
              rw [hs]
              simp only [List.append_assoc]
  obtain ⟨s, hs⟩ := key
  rw [hs]
  simp

/-- The key part of the human-readable result does not depend on the pool. -/
theorem humanReadable_fst {Stats Rest : Type} (U : Divider)
    (g : humanReadableCacheKeyGenerator) (domain : GoString)
    (descriptor : Option (RateLimitDescriptor Rest)) (l : RateLimit Stats) (now : Int) :
    (g.GenerateCacheKey U domain descriptor (some l) now).1 =
      match makeHumanReadableCacheKey U ⟨[]⟩ g.pfx domain descriptor (some l) now, l.Limit with
      | (b, true), some rl => some { Key := b.contents, PerSecond := isPerSecondLimit rl.Unit }
      | _, _ => none := by
  simp only [humanReadableCacheKeyGenerator.GenerateCacheKey, Buffer.Reset, Buffer.String]
  rcases makeHumanReadableCacheKey U ⟨[]⟩ g.pfx domain descriptor (some l) now with ⟨b, ok⟩
  cases ok <;> cases l.Limit <;> rfl

/-- The key part of the hash result does not depend on the pool. -/
theorem hash_fst {Stats Rest : Type} (U : Divider)
    (g : hashCacheKeyGenerator) (domain : GoString)
    (descriptor : Option (RateLimitDescriptor Rest)) (l : RateLimit Stats) (now : Int) :
    (g.GenerateCacheKey U domain descriptor (some l) now).1 =
      match makeHumanReadableCacheKey U ⟨[]⟩ g.pfx domain descriptor (some l) now, l.Limit with
      | (b, true), some rl => some { Key := g.hash b, PerSecond := isPerSecondLimit rl.Unit }
      | _, _ => none := by
  simp only [hashCacheKeyGenerator.GenerateCacheKey, Buffer.Reset]
  rcases makeHumanReadableCacheKey U ⟨[]⟩ g.pfx domain descriptor (some l) now with ⟨b, ok⟩
  cases ok <;> cases l.Limit <;> rfl

/-- What a returned human-readable key is made of. -/
theorem humanReadable_some {Stats Rest : Type} (U : Divider)
    (g : humanReadableCacheKeyGenerator) (domain : GoString)
    (descriptor : Option (RateLimitDescriptor Rest)) (l : RateLimit Stats) (now : Int)
    (ck : CacheKey) (h : (g.GenerateCacheKey U domain descriptor (some l) now).1 = some ck) :
    ∃ b rl, makeHumanReadableCacheKey U ⟨[]⟩ g.pfx domain descriptor (some l) now = (b, true) ∧
      l.Limit = some rl ∧ ck = { Key := b.contents, PerSecond := isPerSecondLimit rl.Unit } := by
  rw [humanReadable_fst] at h
  generalize makeHumanReadableCacheKey U ⟨[]⟩ g.pfx domain descriptor (some l) now = m at h
  obtain ⟨b, ok⟩ := m
  generalize l.Limit = o at h
  cases ok <;> cases o <;> simp at h
  exact ⟨b, _, rfl, rfl, h.symm⟩

/-- What a returned hashed key is made of. -/
theorem hash_some {Stats Rest : Type} (U : Divider)
    (g : hashCacheKeyGenerator) (domain : GoString)
    (descriptor : Option (RateLimitDescriptor Rest)) (l : RateLimit Stats) (now : Int)
    (ck : CacheKey) (h : (g.GenerateCacheKey U domain descriptor (some l) now).1 = some ck) :
    ∃ b rl, makeHumanReadableCacheKey U ⟨[]⟩ g.pfx domain descriptor (some l) now = (b, true) ∧
      l.Limit = some rl ∧ ck = { Key := g.hash b, PerSecond := isPerSecondLimit rl.Unit } := by
  rw [hash_fst] at h
  generalize makeHumanReadableCacheKey U ⟨[]⟩ g.pfx domain descriptor (some l) now = m at h
  obtain ⟨b, ok⟩ := m
  generalize l.Limit = o at h
  cases ok <;> cases o <;> simp at h
  exact ⟨b, _, rfl, rfl, h.symm⟩

/-- A call leaves the configured starting string of the generator as it was. -/
theorem humanReadable_snd_pfx {Stats Rest : Type} (U : Divider)
    (g : humanReadableCacheKeyGenerator) (domain : GoString)
    (descriptor : Option (RateLimitDescriptor Rest)) (limit : Option (RateLimit Stats))
    (now : Int) : (g.GenerateCacheKey U domain descriptor limit now).2.pfx = g.pfx := by
  cases limit with
  | none => rfl
  | some l =>
    simp only [humanReadableCacheKeyGenerator.GenerateCacheKey]
    rcases makeHumanReadableCacheKey U g.bufferPool.Get.1.Reset g.pfx domain descriptor
      (some l) now with ⟨b, ok⟩
    cases ok <;> cases l.Limit <;> rfl

/-- A call leaves the starting string and the hash of the generator as they
were. -/
theorem hash_snd_pfx {Stats Rest : Type} (U : Divider)
    (g : hashCacheKeyGenerator) (domain : GoString)
    (descriptor : Option (RateLimitDescriptor Rest)) (limit : Option (RateLimit Stats))
    (now : Int) :
    (g.GenerateCacheKey U domain descriptor limit now).2.pfx = g.pfx ∧
    (g.GenerateCacheKey U domain descriptor limit now).2.hash = g.hash := by
  cases limit with
  | none => exact ⟨rfl, rfl⟩
  | some l =>
    simp only [hashCacheKeyGenerator.GenerateCacheKey]
    rcases makeHumanReadableCacheKey U g.bufferPool.Get.1.Reset g.pfx domain descriptor
      (some l) now with ⟨b, ok⟩
    cases ok <;> cases l.Limit <;> exact ⟨rfl, rfl⟩

theorem humanReadable_after_pfx {Stats Rest : Type} (U : Divider)
    (calls : List (Call Stats Rest)) :
    ∀ g : humanReadableCacheKeyGenerator, (g.after U calls).pfx = g.pfx := by
  induction calls with
  | nil => intro g; rfl
  | cons c cs ih =>
    intro g
    simp only [humanReadableCacheKeyGenerator.after, List.foldl_cons] at ih ⊢
    rw [ih, humanReadable_snd_pfx]

theorem hash_after_pfx {Stats Rest : Type} (U : Divider)
    (calls : List (Call Stats Rest)) :
    ∀ g : hashCacheKeyGenerator,
      (g.after U calls).pfx = g.pfx ∧ (g.after U calls).hash = g.hash := by
  induction calls with
  | nil => intro g; exact ⟨rfl, rfl⟩
  | cons c cs ih =>
    intro g
    simp only [hashCacheKeyGenerator.after, List.foldl_cons] at ih ⊢
    rw [(ih _).1, (ih _).2]
    exact hash_snd_pfx U g c.domain c.descriptor c.limit c.now

end limiter

/-! ## Hexadecimal encoding and separators -/

namespace hex

theorem EncodeToString_length (src : GoString) :
    (EncodeToString src).length = 2 * src.length := by
  induction src with
  | nil => rfl
  | cons v vs ih =>
    simp only [EncodeToString, List.flatMap_cons, List.length_append, List.length_cons,
      List.length_nil] at ih ⊢
    omega

end hex

namespace limiter

open bytes sync pb pb_struct config

/-- Two strings free of the separator that are each followed by a separator
start the same text only if they are equal, and then the remainders are equal. -/
theorem split_at_sep (a : GoString) :
    ∀ (b r s : GoString), (95 : UInt8) ∉ a → (95 : UInt8) ∉ b →
      a ++ 95 :: r = b ++ 95 :: s → a = b ∧ r = s := by
  induction a with
  | nil =>
    intro b r s _ hb h
    cases b with
    | nil => simpa using h
    | cons y ys =>
      simp only [List.nil_append, List.cons_append, List.cons.injEq] at h
      exact absurd (h.1 ▸ List.mem_cons_self _ _) hb
  | cons x xs ih =>
    intro b r s ha hb h
    cases b with
    | nil =>
      simp only [List.nil_append, List.cons_append, List.cons.injEq] at h
      exact absurd (h.1 ▸ List.mem_cons_self _ _) ha
    | cons y ys =>
      simp only [List.cons_append, List.cons.injEq] at h
      obtain ⟨hxy, hrest⟩ := h
      have := ih ys r s (fun hm => ha (List.mem_cons_of_mem _ hm))
        (fun hm => hb (List.mem_cons_of_mem _ hm)) hrest
      exact ⟨by rw [hxy, this.1], this.2⟩

/-- Entries free of the separator, followed by texts free of the separator,
are determined by the bytes they contribute. -/
theorem entries_injective (es1 : List RateLimitDescriptor_Entry) :
    ∀ (es2 : List RateLimitDescriptor_Entry) (t1 t2 : GoString),
      (∀ e ∈ es1, sepFree e) → (∀ e ∈ es2, sepFree e) →
      (95 : UInt8) ∉ t1 → (95 : UInt8) ∉ t2 →
      es1.flatMap entryBytes ++ t1 = es2.flatMap entryBytes ++ t2 →
      es1 = es2 ∧ t1 = t2 := by
  induction es1 with
  | nil =>
    intro es2 t1 t2 _ _ h1 _ h
    cases es2 with
    | nil => simpa using h
    | cons e es =>
      exfalso
      apply h1
      simp only [List.flatMap_nil, List.nil_append] at h
      rw [h]
      simp [entryBytes]
  | cons e1 es1 ih =>
    intro es2 t1 t2 hs1 hs2 h1 h2 h
    cases es2 with
    | nil =>
      exfalso
      apply h2
      simp only [List.flatMap_nil, List.nil_append] at h
      rw [← h]
      simp [entryBytes]
    | cons e2 es2 =>
      simp only [List.flatMap_cons, entryBytes, List.append_assoc, List.singleton_append] at h
      have f1 := hs1 e1 (List.mem_cons_self _ _)
      have f2 := hs2 e2 (List.mem_cons_self _ _)
      obtain ⟨hk, h⟩ := split_at_sep _ _ _ _ f1.1 f2.1 h
      obtain ⟨hv, h⟩ := split_at_sep _ _ _ _ f1.2 f2.2 h
      obtain ⟨hes, ht⟩ := ih es2 t1 t2 (fun e he => hs1 e (List.mem_cons_of_mem _ he))
        (fun e he => hs2 e (List.mem_cons_of_mem _ he)) h1 h2 h
      refine ⟨?_, ht⟩
      rw [hes]
      congr 1
      cases e1; cases e2
      simp only at hk hv
      rw [hk, hv]

/-- The specification-side key determines the domain, the entries and the bucket,
when domain, keys and values are free of the separator. -/
theorem specKey_injective (pfx : GoString) (d1 d2 : GoString)
    (es1 es2 : List RateLimitDescriptor_Entry) (b1 b2 : Int)
    (hd1 : (95 : UInt8) ∉ d1) (hd2 : (95 : UInt8) ∉ d2)
    (hs1 : ∀ e ∈ es1, sepFree e) (hs2 : ∀ e ∈ es2, sepFree e)
    (h : specKey pfx d1 es1 b1 = specKey pfx d2 es2 b2) :
    d1 = d2 ∧ es1 = es2 ∧ b1 = b2 := by
  simp only [specKey, List.append_assoc, List.singleton_append,
    List.append_cancel_left_eq] at h
  obtain ⟨hd, h⟩ := split_at_sep _ _ _ _ hd1 hd2 h
  obtain ⟨hes, ht⟩ := entries_injective es1 es2 _ _ hs1 hs2
    (strconv.FormatInt_no_sep b1) (strconv.FormatInt_no_sep b2) h
  exact ⟨hd, hes, strconv.FormatInt_injective ht⟩

end limiter

/-! ## Claims -/

set_option maxRecDepth 100000

namespace limiter

open bytes sync pb pb_struct config

/-- C1: for every starting string, domain, descriptor given as a list of
(key, value) entries, limit that is not nil with unit divider `d ≥ 1`, and
`int64` time `now`, the human-readable generator returns a key, and that key is
exactly the starting string, the domain, `_`, then for each entry in input order
its key, `_`, its value, `_`, then the base-10 rendering of `(now / d) * d` (Go
division), with nothing else added. -/
theorem C1_humanReadable_key_exact {Stats Rest : Type} (U : Divider)
    (g : humanReadableCacheKeyGenerator) (domain : GoString)
    (entries : List RateLimitDescriptor_Entry) (rest : Rest)
    (l : RateLimit Stats) (rl : RateLimitResponse_RateLimit) (now : Int)
    (hl : l.Limit = some rl) (hd : 1 ≤ U rl.Unit) (hn : isInt64 now) :
    ((g.GenerateCacheKey U domain (some { Entries := entries.map some, rest := rest })
        (some l) now).1).map CacheKey.Key =
      some (g.pfx ++ domain ++ [95]
        ++ entries.flatMap (fun e => e.Key ++ [95] ++ e.Value ++ [95])
        ++ strconv.FormatInt (Int.tdiv now (U rl.Unit) * U rl.Unit)) := by
  have h := humanReadable_eq U g domain entries rest l rl now hl (by omega)
  rw [bucket_eq hn hd] at h
  simp only [descriptorOf] at h
  rw [h]
  rfl

/-- C1, on the input of `BenchmarkCacheKeyGenerator`: starting string `a_prefix`,
domain `ratelimit.io`, the five entries of the benchmark, unit SECOND, time 0. -/
theorem C1_humanReadable_key_exact_witness :
    isInt64 0 ∧ 1 ≤ utils.UnitToDivider RateLimitResponse_RateLimit_SECOND ∧
    ((NewHumanReadableCacheKeyGenerator (goStr "a_prefix")).GenerateCacheKey
        utils.UnitToDivider (goStr "ratelimit.io")
        (some { Entries :=
                  [some ⟨goStr "PATH", goStr "/foo"⟩,
                   some ⟨goStr "HEADER", goStr "X-Token"⟩,
                   some ⟨goStr "key1", goStr "value1"⟩,
                   some ⟨goStr "long-key1", List.replicate 128 97⟩,
                   some ⟨goStr "long-key2", List.replicate 128 98⟩],
                rest := () })
        (some (limitConfig 10086 RateLimitResponse_RateLimit_SECOND)) 0).1.map CacheKey.Key =
      some (goStr "a_prefixratelimit.io_PATH_/foo_HEADER_X-Token_key1_value1_long-key1_"
        ++ List.replicate 128 97 ++ goStr "_long-key2_" ++ List.replicate 128 98
        ++ goStr "_0") :=
  ⟨by decide, by decide,
    (C1_humanReadable_key_exact utils.UnitToDivider
      (NewHumanReadableCacheKeyGenerator (goStr "a_prefix")) (goStr "ratelimit.io")
      [⟨goStr "PATH", goStr "/foo"⟩, ⟨goStr "HEADER", goStr "X-Token"⟩,
       ⟨goStr "key1", goStr "value1"⟩, ⟨goStr "long-key1", List.replicate 128 97⟩,
       ⟨goStr "long-key2", List.replicate 128 98⟩] ()
      (limitConfig 10086 RateLimitResponse_RateLimit_SECOND)
      ⟨10086, RateLimitResponse_RateLimit_SECOND⟩ 0 rfl (by decide) (by decide)).trans
      (by decide)⟩

end limiter

namespace limiter

open bytes sync pb pb_struct config

/-- Truncated and floored quotients by a positive divider agree exactly on the
nonnegative times and on the multiples of the divider. -/
theorem tdiv_eq_ediv_iff {a d : Int} (hd : 1 ≤ d) :
    Int.tdiv a d = a / d ↔ (0 ≤ a ∨ d ∣ a) := by
  constructor
  · intro h
    by_contra hc
    push_neg at hc
    obtain ⟨hneg, hndvd⟩ := hc
    have hb := tdiv_bounds_neg (le_of_lt hneg) hd
    have he := Int.emod_add_ediv a d
    have hnn := Int.emod_nonneg a (show d ≠ 0 by omega)
    rw [Int.mul_comm] at he
    rw [h] at hb
    have : a % d = 0 := by omega
    exact hndvd (Int.dvd_of_emod_eq_zero this)
  · rintro (h | ⟨k, rfl⟩)
    · exact Int.tdiv_eq_ediv h (by omega)
    · rw [Int.mul_tdiv_cancel_left _ (by omega), Int.mul_ediv_cancel_left _ (by omega)]

/-- The floor of the rational quotient by a positive divider is the integer
quotient rounded down. -/
theorem floor_rat_div (a d : Int) (hd : 1 ≤ d) : ⌊(a : ℚ) / (d : ℚ)⌋ = a / d := by
  obtain ⟨n, rfl⟩ := Int.eq_ofNat_of_zero_le (show 0 ≤ d by omega)
  exact Rat.floor_intCast_div_natCast a n

/-- C2, as stated, fails on a negative time: at `now = -1` with unit MINUTE
(divider 60) the code writes the bucket `0` (Go division truncates toward zero),
while the floor of the rational quotient gives the bucket `-60`. -/
theorem C2_floor_counterexample :
    isInt64 (-1) ∧ 1 ≤ utils.UnitToDivider RateLimitResponse_RateLimit_MINUTE ∧
    makeHumanReadableCacheKey utils.UnitToDivider ⟨[]⟩ [] []
        (some { Entries := [], rest := () })
        (some (limitConfig 1 RateLimitResponse_RateLimit_MINUTE)) (-1) = (⟨goStr "_0"⟩, true) ∧
    goStr "_" ++ strconv.FormatInt
        (⌊((-1 : Int) : ℚ) / ((utils.UnitToDivider RateLimitResponse_RateLimit_MINUTE : Int) : ℚ)⌋
          * utils.UnitToDivider RateLimitResponse_RateLimit_MINUTE) = goStr "_-60" := by
  refine ⟨by decide, by decide, by decide, ?_⟩
  rw [floor_rat_div _ _ (by decide)]
  decide

/-- C2, amended: for every `int64` time `now` (negative ones included) and every
unit divider `d ≥ 1`, `makeHumanReadableCacheKey` returns and the time bucket it
writes at the end of the key is the decimal rendering of `trunc(now / d) * d`,
the quotient truncated toward zero; that bucket is `floor(now / d) * d`, with the
mathematical floor of the rational quotient, exactly when `now ≥ 0` or `d`
divides `now`. -/
theorem C2_bucket_truncated {Stats Rest : Type} (U : Divider) (b : Buffer)
    (pfx domain : GoString) (entries : List RateLimitDescriptor_Entry) (rest : Rest)
    (l : RateLimit Stats) (rl : RateLimitResponse_RateLimit) (now : Int)
    (hl : l.Limit = some rl) (hd : 1 ≤ U rl.Unit) (hn : isInt64 now) :
    makeHumanReadableCacheKey U b pfx domain
        (some { Entries := entries.map some, rest := rest }) (some l) now =
      (⟨b.contents ++ (pfx ++ domain ++ [95]
          ++ entries.flatMap (fun e => e.Key ++ [95] ++ e.Value ++ [95]))
          ++ strconv.FormatInt (Int.tdiv now (U rl.Unit) * U rl.Unit)⟩, true) ∧
    (Int.tdiv now (U rl.Unit) * U rl.Unit = ⌊(now : ℚ) / (U rl.Unit : ℚ)⌋ * U rl.Unit ↔
      (0 ≤ now ∨ U rl.Unit ∣ now)) := by
  constructor
  · have h := makeHumanReadableCacheKey_eq U b pfx domain entries rest l rl now hl (by omega)
    rw [bucket_eq hn hd] at h
    simp only [descriptorOf, specKey] at h
    rw [h]
    show _ = (⟨b.contents ++ (pfx ++ domain ++ [95] ++ entries.flatMap entryBytes)
      ++ strconv.FormatInt (Int.tdiv now (U rl.Unit) * U rl.Unit)⟩, true)
    simp only [List.append_assoc]
  · rw [floor_rat_div _ _ hd, ← tdiv_eq_ediv_iff hd]
    exact Int.mul_eq_mul_right_iff (by omega)

/-- C2 amended, at `now = -61` with unit MINUTE: the bucket written is `-60`. -/
theorem C2_bucket_truncated_witness :
    isInt64 (-61) ∧ 1 ≤ utils.UnitToDivider RateLimitResponse_RateLimit_MINUTE ∧
    makeHumanReadableCacheKey utils.UnitToDivider ⟨[]⟩
        (goStr "p") (goStr "d") (some { Entries := [some ⟨goStr "k", goStr "v"⟩], rest := () })
        (some (limitConfig 1 RateLimitResponse_RateLimit_MINUTE)) (-61) =
      (⟨goStr "pd_k_v_-60"⟩, true) :=
  ⟨by decide, by decide,
    (C2_bucket_truncated utils.UnitToDivider ⟨[]⟩
      (goStr "p") (goStr "d") [⟨goStr "k", goStr "v"⟩] ()
      (limitConfig 1 RateLimitResponse_RateLimit_MINUTE)
      ⟨1, RateLimitResponse_RateLimit_MINUTE⟩ (-61) rfl (by decide) (by decide)).1.trans
      (by decide)⟩

/-- C3: for a fixed generator, domain, descriptor and limit with unit divider
`d ≥ 1`, and any two times `now1, now2 ≥ 0`, both calls return a key, and the two
human-readable keys are equal if and only if `now1 div d = now2 div d`. -/
theorem C3_same_window_iff {Stats Rest : Type} (U : Divider)
    (g : humanReadableCacheKeyGenerator) (domain : GoString)
    (entries : List RateLimitDescriptor_Entry) (rest : Rest)
    (l : RateLimit Stats) (rl : RateLimitResponse_RateLimit) (now1 now2 : Int)
    (hl : l.Limit = some rl) (hd : 1 ≤ U rl.Unit)
    (h1 : 0 ≤ now1) (h1' : isInt64 now1) (h2 : 0 ≤ now2) (h2' : isInt64 now2) :
    (g.GenerateCacheKey U domain (some { Entries := entries.map some, rest := rest })
        (some l) now1).1.isSome = true ∧
    (g.GenerateCacheKey U domain (some { Entries := entries.map some, rest := rest })
        (some l) now2).1.isSome = true ∧
    ((g.GenerateCacheKey U domain (some { Entries := entries.map some, rest := rest })
        (some l) now1).1.map CacheKey.Key =
     (g.GenerateCacheKey U domain (some { Entries := entries.map some, rest := rest })
        (some l) now2).1.map CacheKey.Key ↔ now1 / U rl.Unit = now2 / U rl.Unit) := by
  have e1 := humanReadable_eq U g domain entries rest l rl now1 hl (by omega)
  have e2 := humanReadable_eq U g domain entries rest l rl now2 hl (by omega)
  rw [bucket_eq h1' hd] at e1
  rw [bucket_eq h2' hd] at e2
  simp only [descriptorOf] at e1 e2
  rw [e1, e2]
  refine ⟨rfl, rfl, ?_⟩
  simp only [Option.map_some', Option.some.injEq, specKey, List.append_cancel_left_eq]
  rw [← Int.tdiv_eq_ediv h1 (by omega), ← Int.tdiv_eq_ediv h2 (by omega)]
  constructor
  · intro h
    exact (Int.mul_eq_mul_right_iff (by omega)).mp (strconv.FormatInt_injective h)
  · intro h
    rw [h]

end limiter

namespace limiter

open bytes sync pb pb_struct config

/-- C3, with unit MINUTE (divider 60): the times 61, 90 and 119 give the same
key, the times 119 and 121 give different keys. -/
theorem C3_same_window_iff_witness :
    ((NewHumanReadableCacheKeyGenerator (goStr "p")).GenerateCacheKey utils.UnitToDivider
        (goStr "d") (some { Entries := [some ⟨goStr "k", goStr "v"⟩], rest := () })
        (some (limitConfig 5 RateLimitResponse_RateLimit_MINUTE)) 61).1.map CacheKey.Key =
      ((NewHumanReadableCacheKeyGenerator (goStr "p")).GenerateCacheKey utils.UnitToDivider
        (goStr "d") (some { Entries := [some ⟨goStr "k", goStr "v"⟩], rest := () })
        (some (limitConfig 5 RateLimitResponse_RateLimit_MINUTE)) 90).1.map CacheKey.Key ∧
    ((NewHumanReadableCacheKeyGenerator (goStr "p")).GenerateCacheKey utils.UnitToDivider
        (goStr "d") (some { Entries := [some ⟨goStr "k", goStr "v"⟩], rest := () })
        (some (limitConfig 5 RateLimitResponse_RateLimit_MINUTE)) 61).1.map CacheKey.Key =
      ((NewHumanReadableCacheKeyGenerator (goStr "p")).GenerateCacheKey utils.UnitToDivider
        (goStr "d") (some { Entries := [some ⟨goStr "k", goStr "v"⟩], rest := () })
        (some (limitConfig 5 RateLimitResponse_RateLimit_MINUTE)) 119).1.map CacheKey.Key ∧
    ((NewHumanReadableCacheKeyGenerator (goStr "p")).GenerateCacheKey utils.UnitToDivider
        (goStr "d") (some { Entries := [some ⟨goStr "k", goStr "v"⟩], rest := () })
        (some (limitConfig 5 RateLimitResponse_RateLimit_MINUTE)) 119).1.map CacheKey.Key ≠
      ((NewHumanReadableCacheKeyGenerator (goStr "p")).GenerateCacheKey utils.UnitToDivider
        (goStr "d") (some { Entries := [some ⟨goStr "k", goStr "v"⟩], rest := () })
        (some (limitConfig 5 RateLimitResponse_RateLimit_MINUTE)) 121).1.map CacheKey.Key :=
  ⟨(C3_same_window_iff utils.UnitToDivider
      (NewHumanReadableCacheKeyGenerator (goStr "p")) (goStr "d") [⟨goStr "k", goStr "v"⟩] ()
      (limitConfig 5 RateLimitResponse_RateLimit_MINUTE) ⟨5, RateLimitResponse_RateLimit_MINUTE⟩
      61 90 rfl (by decide) (by decide) (by decide) (by decide) (by decide)).2.2.mpr (by decide),
   (C3_same_window_iff utils.UnitToDivider
      (NewHumanReadableCacheKeyGenerator (goStr "p")) (goStr "d") [⟨goStr "k", goStr "v"⟩] ()
      (limitConfig 5 RateLimitResponse_RateLimit_MINUTE) ⟨5, RateLimitResponse_RateLimit_MINUTE⟩
      61 119 rfl (by decide) (by decide) (by decide) (by decide) (by decide)).2.2.mpr (by decide),
   fun h => absurd ((C3_same_window_iff utils.UnitToDivider
      (NewHumanReadableCacheKeyGenerator (goStr "p")) (goStr "d") [⟨goStr "k", goStr "v"⟩] ()
      (limitConfig 5 RateLimitResponse_RateLimit_MINUTE) ⟨5, RateLimitResponse_RateLimit_MINUTE⟩
      119 121 rfl (by decide) (by decide) (by decide) (by decide) (by decide)).2.2.mp h)
      (by decide)⟩

/-- C4: when the limit is nil, `GenerateCacheKey` of the human-readable generator
and of the hash generator (whatever its hash function) returns
`CacheKey{Key: "", PerSecond: false}` for every starting string, pool, domain,
time and descriptor, a nil descriptor included, and leaves the generator (its
pool) untouched; conversely, with a limit that is not nil, every key the
human-readable generator returns is nonempty, and it does return one on a
descriptor without nil entries, a limit carrying its protobuf limit and a nonzero
divider. -/
theorem C4_nil_limit_empty_key {Stats Rest : Type} (U : Divider) :
    (∀ (g : humanReadableCacheKeyGenerator) (domain : GoString)
        (descriptor : Option (RateLimitDescriptor Rest)) (now : Int),
        g.GenerateCacheKey U domain descriptor (none : Option (RateLimit Stats)) now =
          (some { Key := [], PerSecond := false }, g)) ∧
    (∀ (g : hashCacheKeyGenerator) (domain : GoString)
        (descriptor : Option (RateLimitDescriptor Rest)) (now : Int),
        g.GenerateCacheKey U domain descriptor (none : Option (RateLimit Stats)) now =
          (some { Key := [], PerSecond := false }, g)) ∧
    (∀ (g : humanReadableCacheKeyGenerator) (domain : GoString)
        (descriptor : Option (RateLimitDescriptor Rest)) (l : RateLimit Stats) (now : Int)
        (ck : CacheKey),
        (g.GenerateCacheKey U domain descriptor (some l) now).1 = some ck → ck.Key ≠ []) ∧
    (∀ (g : humanReadableCacheKeyGenerator) (domain : GoString)
        (entries : List RateLimitDescriptor_Entry) (rest : Rest) (l : RateLimit Stats)
        (rl : RateLimitResponse_RateLimit) (now : Int),
        l.Limit = some rl → U rl.Unit ≠ 0 →
        ∃ ck, (g.GenerateCacheKey U domain
            (some { Entries := entries.map some, rest := rest }) (some l) now).1 = some ck ∧
          ck.Key ≠ []) := by
  have third : ∀ (g : humanReadableCacheKeyGenerator) (domain : GoString)
      (descriptor : Option (RateLimitDescriptor Rest)) (l : RateLimit Stats) (now : Int)
      (ck : CacheKey),
      (g.GenerateCacheKey U domain descriptor (some l) now).1 = some ck → ck.Key ≠ [] := by
    intro g domain descriptor l now ck h
    obtain ⟨b, rl, hm, _, hck⟩ := humanReadable_some U g domain descriptor l now ck h
    have hne := makeHumanReadableCacheKey_contents_ne_nil U ⟨[]⟩ g.pfx domain descriptor
      (some l) now
    rw [hm] at hne
    rw [hck]
    exact hne
  refine ⟨fun _ _ _ _ => rfl, fun _ _ _ _ => rfl, third, ?_⟩
  intro g domain entries rest l rl now hl hd
  have h := humanReadable_eq U g domain entries rest l rl now hl hd
  simp only [descriptorOf] at h
  exact ⟨_, h, third g domain _ l now _ h⟩

/-- C5: for every limit that is not nil, every generator state, domain,
descriptor and time, a `CacheKey` returned by either generator comes from a
limit carrying its protobuf limit and has `PerSecond` true if and only if that
limit's unit is SECOND, so the flag depends on nothing else; and on a descriptor
without nil entries and a nonzero divider both generators do return. -/
theorem C5_perSecond_iff_second {Stats Rest : Type} (U : Divider) :
    (∀ (g : humanReadableCacheKeyGenerator) (domain : GoString)
        (descriptor : Option (RateLimitDescriptor Rest)) (l : RateLimit Stats) (now : Int)
        (ck : CacheKey),
        (g.GenerateCacheKey U domain descriptor (some l) now).1 = some ck →
        ∃ rl, l.Limit = some rl ∧
          (ck.PerSecond = true ↔ rl.Unit = RateLimitResponse_RateLimit_SECOND)) ∧
    (∀ (g : hashCacheKeyGenerator) (domain : GoString)
        (descriptor : Option (RateLimitDescriptor Rest)) (l : RateLimit Stats) (now : Int)
        (ck : CacheKey),
        (g.GenerateCacheKey U domain descriptor (some l) now).1 = some ck →
        ∃ rl, l.Limit = some rl ∧
          (ck.PerSecond = true ↔ rl.Unit = RateLimitResponse_RateLimit_SECOND)) ∧
    (∀ (g : humanReadableCacheKeyGenerator) (g' : hashCacheKeyGenerator) (domain : GoString)
        (entries : List RateLimitDescriptor_Entry) (rest : Rest) (l : RateLimit Stats)
        (rl : RateLimitResponse_RateLimit) (now : Int),
        l.Limit = some rl → U rl.Unit ≠ 0 →
        (g.GenerateCacheKey U domain
            (some { Entries := entries.map some, rest := rest }) (some l) now).1.isSome = true ∧
        (g'.GenerateCacheKey U domain
            (some { Entries := entries.map some, rest := rest }) (some l) now).1.isSome = true) := by
  refine ⟨?_, ?_, ?_⟩
  · intro g domain descriptor l now ck h
    obtain ⟨b, rl, _, hL, hck⟩ := humanReadable_some U g domain descriptor l now ck h
    refine ⟨rl, hL, ?_⟩
    rw [hck]
    simp [isPerSecondLimit]
  · intro g domain descriptor l now ck h
    obtain ⟨b, rl, _, hL, hck⟩ := hash_some U g domain descriptor l now ck h
    refine ⟨rl, hL, ?_⟩
    rw [hck]
    simp [isPerSecondLimit]
  · intro g g' domain entries rest l rl now hl hd
    have h1 := humanReadable_eq U g domain entries rest l rl now hl hd
    have h2 := hash_eq U g' domain entries rest l rl now hl hd
    simp only [descriptorOf] at h1 h2
    rw [h1, h2]
    exact ⟨rfl, rfl⟩

/-- C6: for every hash function `h`, starting string, pools, domain, descriptor,
limit that is not nil and time, the hash generator's result is the
human-readable generator's result with the key replaced by `h` applied to the
buffer holding exactly the bytes of the human-readable key, the `PerSecond` flag
unchanged (and the one faults exactly when the other does). -/
theorem C6_hash_of_humanReadable {Stats Rest : Type} (U : Divider)
    (h : Buffer → GoString) (pfx : GoString) (pool pool' : Pool) (domain : GoString)
    (descriptor : Option (RateLimitDescriptor Rest)) (l : RateLimit Stats) (now : Int) :
    ((NewHashCacheKeyGenerator pfx h).GenerateCacheKey U domain descriptor (some l) now).1 =
      ((NewHumanReadableCacheKeyGenerator pfx).GenerateCacheKey U domain descriptor
        (some l) now).1.map (fun ck => { Key := h ⟨ck.Key⟩, PerSecond := ck.PerSecond }) ∧
    (({ pfx := pfx, bufferPool := pool, hash := h } : hashCacheKeyGenerator).GenerateCacheKey
        U domain descriptor (some l) now).1 =
      (({ pfx := pfx, bufferPool := pool' } : humanReadableCacheKeyGenerator).GenerateCacheKey
        U domain descriptor (some l) now).1.map
        (fun ck => { Key := h ⟨ck.Key⟩, PerSecond := ck.PerSecond }) := by
  have key : ∀ (p p' : Pool),
      (({ pfx := pfx, bufferPool := p, hash := h } : hashCacheKeyGenerator).GenerateCacheKey
        U domain descriptor (some l) now).1 =
      (({ pfx := pfx, bufferPool := p' } : humanReadableCacheKeyGenerator).GenerateCacheKey
        U domain descriptor (some l) now).1.map
        (fun ck => { Key := h ⟨ck.Key⟩, PerSecond := ck.PerSecond }) := by
    intro p p'
    rw [humanReadable_fst, hash_fst]
    simp only
    rcases makeHumanReadableCacheKey U ⟨[]⟩ pfx domain descriptor (some l) now with ⟨b, ok⟩
    cases ok <;> cases l.Limit <;> rfl
  exact ⟨key _ _, key _ _⟩

/-- C7: with the buffer pool as explicit state, the `CacheKey` returned for fixed
(starting string, domain, descriptor, limit, time) is the same whatever buffers
the pool holds and whatever bytes they hold, and so the same after any sequence
of earlier calls on arbitrary inputs as on a fresh generator; this holds for the
human-readable generator and, the hash being a function of the buffer's bytes,
for the hash generator. -/
theorem C7_pool_state_irrelevant {Stats Rest : Type} (U : Divider)
    (pfx : GoString) (h : Buffer → GoString) (domain : GoString)
    (descriptor : Option (RateLimitDescriptor Rest)) (limit : Option (RateLimit Stats))
    (now : Int) :
    (∀ pool pool' : Pool,
      (({ pfx := pfx, bufferPool := pool } : humanReadableCacheKeyGenerator).GenerateCacheKey
        U domain descriptor limit now).1 =
      (({ pfx := pfx, bufferPool := pool' } : humanReadableCacheKeyGenerator).GenerateCacheKey
        U domain descriptor limit now).1) ∧
    (∀ (pool : Pool) (calls : List (Call Stats Rest)),
      ((({ pfx := pfx, bufferPool := pool } : humanReadableCacheKeyGenerator).after U
        calls).GenerateCacheKey U domain descriptor limit now).1 =
      ((NewHumanReadableCacheKeyGenerator pfx).GenerateCacheKey
        U domain descriptor limit now).1) ∧
    (∀ pool pool' : Pool,
      (({ pfx := pfx, bufferPool := pool, hash := h } : hashCacheKeyGenerator).GenerateCacheKey
        U domain descriptor limit now).1 =
      (({ pfx := pfx, bufferPool := pool', hash := h } : hashCacheKeyGenerator).GenerateCacheKey
        U domain descriptor limit now).1) ∧
    (∀ (pool : Pool) (calls : List (Call Stats Rest)),
      ((({ pfx := pfx, bufferPool := pool, hash := h } : hashCacheKeyGenerator).after U
        calls).GenerateCacheKey U domain descriptor limit now).1 =
      ((NewHashCacheKeyGenerator pfx h).GenerateCacheKey
        U domain descriptor limit now).1) := by
  have hr : ∀ g g' : humanReadableCacheKeyGenerator, g.pfx = g'.pfx →
      (g.GenerateCacheKey U domain descriptor limit now).1 =
      (g'.GenerateCacheKey U domain descriptor limit now).1 := by
    intro g g' hp
    cases limit with
    | none => rfl
    | some l => rw [humanReadable_fst, humanReadable_fst, hp]
  have hh : ∀ g g' : hashCacheKeyGenerator, g.pfx = g'.pfx → g.hash = g'.hash →
      (g.GenerateCacheKey U domain descriptor limit now).1 =
      (g'.GenerateCacheKey U domain descriptor limit now).1 := by
    intro g g' hp hf
    cases limit with
    | none => rfl
    | some l => rw [hash_fst, hash_fst, hp, hf]
  refine ⟨fun _ _ => hr _ _ rfl, fun pool calls => hr _ _ ?_, fun _ _ => hh _ _ rfl rfl,
    fun pool calls => hh _ _ ?_ ?_⟩
  · rw [humanReadable_after_pfx]; rfl
  · rw [(hash_after_pfx U calls _).1]; rfl
  · rw [(hash_after_pfx U calls _).2]; rfl

/-- C4, evaluated: a nil limit with a nil descriptor gives the empty key from
both generators, and a limit with unit SECOND gives a nonempty key. -/
theorem C4_nil_limit_empty_key_witness :
    (NewHumanReadableCacheKeyGenerator (goStr "p")).GenerateCacheKey utils.UnitToDivider
        (goStr "d") (none : Option (RateLimitDescriptor Unit))
        (none : Option (RateLimit Unit)) 5 =
      (some { Key := [], PerSecond := false }, NewHumanReadableCacheKeyGenerator (goStr "p")) ∧
    ((NewHashCacheKeyGenerator (goStr "p") FNVHash).GenerateCacheKey utils.UnitToDivider
        (goStr "d") (none : Option (RateLimitDescriptor Unit))
        (none : Option (RateLimit Unit)) 5).1 = some { Key := [], PerSecond := false } ∧
    ∃ ck, ((NewHumanReadableCacheKeyGenerator (goStr "p")).GenerateCacheKey
        utils.UnitToDivider (goStr "d")
        (some { Entries := [⟨goStr "k", goStr "v"⟩].map some, rest := () })
        (some (limitConfig 5 RateLimitResponse_RateLimit_SECOND)) 5).1 = some ck ∧
      ck.Key ≠ [] :=
  ⟨(C4_nil_limit_empty_key utils.UnitToDivider).1 _ _ _ _,
   congrArg Prod.fst ((C4_nil_limit_empty_key utils.UnitToDivider).2.1 _ _ _ _),
   (C4_nil_limit_empty_key utils.UnitToDivider).2.2.2 _ _ _ _ _
     ⟨5, RateLimitResponse_RateLimit_SECOND⟩ _ rfl (by decide)⟩

/-- C5, evaluated: with unit SECOND the returned key is flagged per second, with
unit MINUTE it is not. -/
theorem C5_perSecond_iff_second_witness :
    ((NewHumanReadableCacheKeyGenerator (goStr "p")).GenerateCacheKey utils.UnitToDivider
        (goStr "d") (some { Entries := [some ⟨goStr "k", goStr "v"⟩], rest := () })
        (some (limitConfig 5 RateLimitResponse_RateLimit_SECOND)) 7).1 =
      some { Key := goStr "pd_k_v_7", PerSecond := true } ∧
    ((NewHumanReadableCacheKeyGenerator (goStr "p")).GenerateCacheKey utils.UnitToDivider
        (goStr "d") (some { Entries := [some ⟨goStr "k", goStr "v"⟩], rest := () })
        (some (limitConfig 5 RateLimitResponse_RateLimit_MINUTE)) 7).1 =
      some { Key := goStr "pd_k_v_0", PerSecond := false } ∧
    (∃ rl, (limitConfig 5 RateLimitResponse_RateLimit_SECOND).Limit = some rl ∧
      ((true = true) ↔ rl.Unit = RateLimitResponse_RateLimit_SECOND)) ∧
    (∃ rl, (limitConfig 5 RateLimitResponse_RateLimit_MINUTE).Limit = some rl ∧
      ((false = true) ↔ rl.Unit = RateLimitResponse_RateLimit_SECOND)) :=
  ⟨by decide, by decide,
   (C5_perSecond_iff_second utils.UnitToDivider).1
     (NewHumanReadableCacheKeyGenerator (goStr "p")) (goStr "d")
     (some { Entries := [some ⟨goStr "k", goStr "v"⟩], rest := () })
     (limitConfig 5 RateLimitResponse_RateLimit_SECOND) 7
     { Key := goStr "pd_k_v_7", PerSecond := true } (by decide),
   (C5_perSecond_iff_second utils.UnitToDivider).1
     (NewHumanReadableCacheKeyGenerator (goStr "p")) (goStr "d")
     (some { Entries := [some ⟨goStr "k", goStr "v"⟩], rest := () })
     (limitConfig 5 RateLimitResponse_RateLimit_MINUTE) 7
     { Key := goStr "pd_k_v_0", PerSecond := false } (by decide)⟩

end limiter

namespace limiter

open bytes sync pb pb_struct config

/-- C8, as stated, fails for `CRC32Hash`: on the empty buffer the key has 8
characters (fewer than 32) and on a one-byte buffer it has 10, so no single
length of at least 32 characters fits every input. -/
theorem C8_crc32_counterexample :
    (CRC32Hash ⟨[]⟩).length = 8 ∧ (CRC32Hash ⟨[0]⟩).length = 10 ∧
    ¬ ∃ n, 32 ≤ n ∧ ∀ b : Buffer, (CRC32Hash b).length = n := by
  refine ⟨by decide, by decide, ?_⟩
  rintro ⟨n, hn, h⟩
  have h0 : (CRC32Hash ⟨[]⟩).length = 8 := by decide
  rw [h ⟨[]⟩] at h0
  omega

/-- C8, amended: for the hash strategies `MurMurHash3`, `CityHash` (their
libraries returning 16-byte digests), `FarmHash` and `FNVHash`, the returned key
has exactly 32 characters, the hex rendering of a 128-bit digest, for every
input buffer whatever its length. (Nothing is stated for `CRC32Hash`.) -/
theorem C8_fixed_key_size (Sum128 : GoString → GoString)
    (CityHash128Bytes : GoString → Nat → GoString) (Hash128 : GoString → Nat × Nat)
    (hm : ∀ s, (Sum128 s).length = 16) (hc : ∀ s n, (CityHash128Bytes s n).length = 16)
    (b : Buffer) :
    (MurMurHash3 Sum128 b).length = 32 ∧ (CityHash CityHash128Bytes b).length = 32 ∧
    (FarmHash Hash128 b).length = 32 ∧ (FNVHash b).length = 32 := by
  refine ⟨?_, ?_, ?_, ?_⟩
  · rw [MurMurHash3, hex.EncodeToString_length, hm]
  · rw [CityHash, hex.EncodeToString_length, hc]
  · simp only [FarmHash, hex.EncodeToString_length, binary.LittleEndian.PutUint64]
    simp
  · simp only [FNVHash, hex.EncodeToString_length, fnv.sum128.Sum]
    simp

/-- C8 amended, on the buffer holding `ab` with library digests of sixteen zero
bytes and halves `(1, 2)`. -/
theorem C8_fixed_key_size_witness :
    (MurMurHash3 (fun _ => List.replicate 16 0) ⟨goStr "ab"⟩).length = 32 ∧
    (CityHash (fun _ _ => List.replicate 16 0) ⟨goStr "ab"⟩).length = 32 ∧
    (FarmHash (fun _ => (1, 2)) ⟨goStr "ab"⟩).length = 32 ∧
    (FNVHash ⟨goStr "ab"⟩).length = 32 :=
  C8_fixed_key_size (fun _ => List.replicate 16 0) (fun _ _ => List.replicate 16 0)
    (fun _ => (1, 2)) (fun _ => rfl) (fun _ _ => rfl) ⟨goStr "ab"⟩

/-- C9, as stated, fails: the separator `_` may occur inside a domain, key or
value. With the same starting string, limit and time, the entry `(a_b, c)` and
the entry `(a, b_c)` under the same domain give the same key, and so do the
domain `a` with the entry `(b, c)` and the domain `a_b_c` with no entry. -/
theorem C9_separator_counterexample :
    ([some (⟨goStr "a_b", goStr "c"⟩ : RateLimitDescriptor_Entry)] ≠
      [some ⟨goStr "a", goStr "b_c"⟩]) ∧
    ((NewHumanReadableCacheKeyGenerator (goStr "p")).GenerateCacheKey utils.UnitToDivider
        (goStr "d") (some { Entries := [some ⟨goStr "a_b", goStr "c"⟩], rest := () })
        (some (limitConfig 5 RateLimitResponse_RateLimit_SECOND)) 0).1 =
      some { Key := goStr "pd_a_b_c_0", PerSecond := true } ∧
    ((NewHumanReadableCacheKeyGenerator (goStr "p")).GenerateCacheKey utils.UnitToDivider
        (goStr "d") (some { Entries := [some ⟨goStr "a", goStr "b_c"⟩], rest := () })
        (some (limitConfig 5 RateLimitResponse_RateLimit_SECOND)) 0).1 =
      some { Key := goStr "pd_a_b_c_0", PerSecond := true } ∧
    goStr "a" ≠ goStr "a_b_c" ∧
    ((NewHumanReadableCacheKeyGenerator (goStr "p")).GenerateCacheKey utils.UnitToDivider
        (goStr "a") (some { Entries := [some ⟨goStr "b", goStr "c"⟩], rest := () })
        (some (limitConfig 5 RateLimitResponse_RateLimit_SECOND)) 0).1 =
      some { Key := goStr "pa_b_c_0", PerSecond := true } ∧
    ((NewHumanReadableCacheKeyGenerator (goStr "p")).GenerateCacheKey utils.UnitToDivider
        (goStr "a_b_c") (some { Entries := [], rest := () })
        (some (limitConfig 5 RateLimitResponse_RateLimit_SECOND)) 0).1 =
      some { Key := goStr "pa_b_c_0", PerSecond := true } := by
  refine ⟨by decide, by decide, by decide, by decide, by decide, by decide⟩

/-- C9, amended: for a fixed generator, limit (with nonzero unit divider) and
time, two inputs whose domains and entry keys and values do not contain the
separator `_`, and that differ in the domain or in the ordered list of
(key, value) entries, both get a human-readable key and the two keys differ. -/
theorem C9_distinct_inputs_distinct_keys {Stats Rest : Type} (U : Divider)
    (g : humanReadableCacheKeyGenerator) (l : RateLimit Stats)
    (rl : RateLimitResponse_RateLimit) (now : Int) (domain1 domain2 : GoString)
    (entries1 entries2 : List RateLimitDescriptor_Entry) (rest1 rest2 : Rest)
    (hl : l.Limit = some rl) (hd : U rl.Unit ≠ 0)
    (hd1 : (95 : UInt8) ∉ domain1) (hd2 : (95 : UInt8) ∉ domain2)
    (hs1 : ∀ e ∈ entries1, (95 : UInt8) ∉ e.Key ∧ (95 : UInt8) ∉ e.Value)
    (hs2 : ∀ e ∈ entries2, (95 : UInt8) ∉ e.Key ∧ (95 : UInt8) ∉ e.Value)
    (hne : domain1 ≠ domain2 ∨ entries1 ≠ entries2) :
    ∃ k1 k2,
      (g.GenerateCacheKey U domain1 (some { Entries := entries1.map some, rest := rest1 })
        (some l) now).1 = some k1 ∧
      (g.GenerateCacheKey U domain2 (some { Entries := entries2.map some, rest := rest2 })
        (some l) now).1 = some k2 ∧
      k1.Key ≠ k2.Key := by
  have e1 := humanReadable_eq U g domain1 entries1 rest1 l rl now hl hd
  have e2 := humanReadable_eq U g domain2 entries2 rest2 l rl now hl hd
  simp only [descriptorOf] at e1 e2
  refine ⟨_, _, e1, e2, ?_⟩
  intro h
  obtain ⟨hdom, hes, _⟩ := specKey_injective g.pfx domain1 domain2 entries1 entries2 _ _
    hd1 hd2 hs1 hs2 h
  rcases hne with hne | hne
  · exact hne hdom
  · exact hne hes

/-- C9 amended, on the domains `a` and `b` with the same entry `(k, v)`. -/
theorem C9_distinct_inputs_distinct_keys_witness :
    ∃ k1 k2,
      ((NewHumanReadableCacheKeyGenerator (goStr "p")).GenerateCacheKey utils.UnitToDivider
        (goStr "a") (some { Entries := [⟨goStr "k", goStr "v"⟩].map some, rest := () })
        (some (limitConfig 5 RateLimitResponse_RateLimit_SECOND)) 0).1 = some k1 ∧
      ((NewHumanReadableCacheKeyGenerator (goStr "p")).GenerateCacheKey utils.UnitToDivider
        (goStr "b") (some { Entries := [⟨goStr "k", goStr "v"⟩].map some, rest := () })
        (some (limitConfig 5 RateLimitResponse_RateLimit_SECOND)) 0).1 = some k2 ∧
      k1.Key ≠ k2.Key :=
  C9_distinct_inputs_distinct_keys utils.UnitToDivider
    (NewHumanReadableCacheKeyGenerator (goStr "p"))
    (limitConfig 5 RateLimitResponse_RateLimit_SECOND) ⟨5, RateLimitResponse_RateLimit_SECOND⟩ 0
    (goStr "a") (goStr "b") [⟨goStr "k", goStr "v"⟩] [⟨goStr "k", goStr "v"⟩] () ()
    rfl (by decide) (by decide) (by decide) (by decide) (by decide) (Or.inl (by decide))

/-- C10: for every generator state, domain and time, two limits that are not
nil and carry protobuf limits with the same unit (whatever their
`RequestsPerUnit`, `FullKey`, `Stats`, `Name`, `Replaces`, `Unlimited`,
`ShadowMode`) and two descriptors with the same ordered list of entries
(whatever else the messages carry) get identical results from the
human-readable generator and from the hash generator. -/
theorem C10_only_unit_and_entries {Stats Rest : Type} (U : Divider)
    (g : humanReadableCacheKeyGenerator) (g' : hashCacheKeyGenerator) (domain : GoString)
    (d1 d2 : RateLimitDescriptor Rest) (l1 l2 : RateLimit Stats)
    (rl1 rl2 : RateLimitResponse_RateLimit) (now : Int)
    (h1 : l1.Limit = some rl1) (h2 : l2.Limit = some rl2) (hu : rl1.Unit = rl2.Unit)
    (he : d1.Entries = d2.Entries) :
    (g.GenerateCacheKey U domain (some d1) (some l1) now).1 =
      (g.GenerateCacheKey U domain (some d2) (some l2) now).1 ∧
    (g'.GenerateCacheKey U domain (some d1) (some l1) now).1 =
      (g'.GenerateCacheKey U domain (some d2) (some l2) now).1 := by
  have hm : ∀ pfx, makeHumanReadableCacheKey U ⟨[]⟩ pfx domain (some d1) (some l1) now =
      makeHumanReadableCacheKey U ⟨[]⟩ pfx domain (some d2) (some l2) now := by
    intro pfx
    simp only [makeHumanReadableCacheKey, he, h1, h2, hu]
  constructor
  · rw [humanReadable_fst, humanReadable_fst, hm, h1, h2]
    rcases makeHumanReadableCacheKey U ⟨[]⟩ g.pfx domain (some d2) (some l2) now with ⟨b, ok⟩
    cases ok
    · rfl
    · simp only [hu]
  · rw [hash_fst, hash_fst, hm, h1, h2]
    rcases makeHumanReadableCacheKey U ⟨[]⟩ g'.pfx domain (some d2) (some l2) now with ⟨b, ok⟩
    cases ok
    · rfl
    · simp only [hu]

/-- C10, on two limits with unit MINUTE that differ in every other field and two
descriptors with the same entry that differ in what else they carry. -/
theorem C10_only_unit_and_entries_witness :
    ((NewHumanReadableCacheKeyGenerator (goStr "p")).GenerateCacheKey utils.UnitToDivider
        (goStr "d") (some { Entries := [some ⟨goStr "k", goStr "v"⟩], rest := (0 : Nat) })
        (some (limitConfig 5 RateLimitResponse_RateLimit_MINUTE)) 61).1 =
      ((NewHumanReadableCacheKeyGenerator (goStr "p")).GenerateCacheKey utils.UnitToDivider
        (goStr "d") (some { Entries := [some ⟨goStr "k", goStr "v"⟩], rest := (1 : Nat) })
        (some { FullKey := goStr "d.k_v", Stats := (),
                Limit := some ⟨7, RateLimitResponse_RateLimit_MINUTE⟩, Unlimited := true,
                ShadowMode := true, Name := goStr "n", Replaces := [goStr "m"] }) 61).1 ∧
    ((NewHashCacheKeyGenerator (goStr "p") FNVHash).GenerateCacheKey utils.UnitToDivider
        (goStr "d") (some { Entries := [some ⟨goStr "k", goStr "v"⟩], rest := (0 : Nat) })
        (some (limitConfig 5 RateLimitResponse_RateLimit_MINUTE)) 61).1 =
      ((NewHashCacheKeyGenerator (goStr "p") FNVHash).GenerateCacheKey utils.UnitToDivider
        (goStr "d") (some { Entries := [some ⟨goStr "k", goStr "v"⟩], rest := (1 : Nat) })
        (some { FullKey := goStr "d.k_v", Stats := (),
                Limit := some ⟨7, RateLimitResponse_RateLimit_MINUTE⟩, Unlimited := true,
                ShadowMode := true, Name := goStr "n", Replaces := [goStr "m"] }) 61).1 :=
  C10_only_unit_and_entries utils.UnitToDivider (NewHumanReadableCacheKeyGenerator (goStr "p"))
    (NewHashCacheKeyGenerator (goStr "p") FNVHash) (goStr "d")
    { Entries := [some ⟨goStr "k", goStr "v"⟩], rest := (0 : Nat) }
    { Entries := [some ⟨goStr "k", goStr "v"⟩], rest := (1 : Nat) }
    (limitConfig 5 RateLimitResponse_RateLimit_MINUTE)
    { FullKey := goStr "d.k_v", Stats := (),
      Limit := some ⟨7, RateLimitResponse_RateLimit_MINUTE⟩, Unlimited := true,
      ShadowMode := true, Name := goStr "n", Replaces := [goStr "m"] }
    ⟨5, RateLimitResponse_RateLimit_MINUTE⟩ ⟨7, RateLimitResponse_RateLimit_MINUTE⟩ 61
    rfl rfl rfl rfl

end limiter

/-! ## Hexadecimal encoding is lowercase and injective; little-endian bytes -/

namespace hex

theorem hexDigit_toNat (n : Nat) :
    (hexDigit n).toNat = if n % 16 < 10 then 48 + n % 16 else 87 + n % 16 := by
  unfold hexDigit
  split
  · show (48 + n % 16) % 256 = 48 + n % 16
    omega
  · show (87 + n % 16) % 256 = 87 + n % 16
    omega

theorem hexDigit_isLowerHex (n : Nat) : isLowerHex (hexDigit n) := by
  unfold isLowerHex
  rw [hexDigit_toNat]
  split <;> omega

theorem hexValue_hexDigit (n : Nat) : hexValue (hexDigit n) = n % 16 := by
  unfold hexValue
  rw [hexDigit_toNat]
  by_cases h : n % 16 < 10
  · rw [if_pos h, if_pos (by omega)]
    omega
  · rw [if_neg h, if_neg (by omega)]
    omega

/-- The two characters written for a byte determine the byte. -/
theorem byte_of_hexDigits {v w : UInt8}
    (hh : hexDigit (v.toNat >>> 4) = hexDigit (w.toNat >>> 4))
    (hl : hexDigit (v.toNat &&& 15) = hexDigit (w.toNat &&& 15)) : v = w := by
  have h1 := congrArg hexValue hh
  have h2 := congrArg hexValue hl
  rw [hexValue_hexDigit, hexValue_hexDigit] at h1 h2
  have e4 : ∀ x : Nat, x >>> 4 = x / 16 := fun x => Nat.shiftRight_eq_div_pow x 4
  have e15 : ∀ x : Nat, x &&& 15 = x % 16 := fun x => Nat.and_pow_two_sub_one_eq_mod x 4
  rw [e4, e4] at h1
  rw [e15, e15] at h2
  have hv := UInt8.toNat_lt v
  have hw := UInt8.toNat_lt w
  apply UInt8.ext
  omega

theorem EncodeToString_cons (v : UInt8) (vs : GoString) :
    EncodeToString (v :: vs) =
      hexDigit (v.toNat >>> 4) :: hexDigit (v.toNat &&& 15) :: EncodeToString vs := by
  simp [EncodeToString, List.flatMap_cons]

theorem EncodeToString_append (s t : GoString) :
    EncodeToString (s ++ t) = EncodeToString s ++ EncodeToString t := by
  simp [EncodeToString, List.flatMap_append]

/-- The hexadecimal encoding determines the bytes. -/
theorem EncodeToString_injective (s : GoString) :
    ∀ t : GoString, EncodeToString s = EncodeToString t → s = t := by
  induction s with
  | nil =>
    intro t h
    cases t with
    | nil => rfl
    | cons w ws => rw [EncodeToString_cons] at h; exact absurd h (by simp [EncodeToString])
  | cons v vs ih =>
    intro t h
    cases t with
    | nil => rw [EncodeToString_cons] at h; exact absurd h (by simp [EncodeToString])
    | cons w ws =>
      rw [EncodeToString_cons, EncodeToString_cons] at h
      simp only [List.cons.injEq] at h
      obtain ⟨hh, hl, hr⟩ := h
      rw [byte_of_hexDigits hh hl, ih ws hr]

/-- Every character of the encoding is a lowercase hexadecimal character. -/
theorem EncodeToString_isLowerHex (s : GoString) :
    ∀ c ∈ EncodeToString s, isLowerHex c := by
  induction s with
  | nil => intro c hc; simp [EncodeToString] at hc
  | cons v vs ih =>
    intro c hc
    rw [EncodeToString_cons] at hc
    simp only [List.mem_cons] at hc
    rcases hc with hc | hc | hc
    · rw [hc]; exact hexDigit_isLowerHex _
    · rw [hc]; exact hexDigit_isLowerHex _
    · exact ih c hc

end hex

namespace binary

/-- What `PutUint64` writes: the little-endian bytes of the value in place of the
first 8 bytes, the rest of the slice as it was. -/
theorem PutUint64_eq (b : GoString) (v : Nat) :
    LittleEndian.PutUint64 b v = littleEndianBytes v ++ b.drop 8 := by
  have e : ∀ k : Nat, v >>> k = v / 2 ^ k := fun k => Nat.shiftRight_eq_div_pow v k
  unfold LittleEndian.PutUint64 littleEndianBytes
  rw [e, e, e, e, e, e, e]
  show _ = [UInt8.ofNat (v / 256 ^ 0), UInt8.ofNat (v / 256 ^ 1), UInt8.ofNat (v / 256 ^ 2),
    UInt8.ofNat (v / 256 ^ 3), UInt8.ofNat (v / 256 ^ 4), UInt8.ofNat (v / 256 ^ 5),
    UInt8.ofNat (v / 256 ^ 6), UInt8.ofNat (v / 256 ^ 7)] ++ b.drop 8
  norm_num

theorem littleEndianBytes_length (v : Nat) : (littleEndianBytes v).length = 8 := by
  simp [littleEndianBytes]

/-- The little-endian bytes determine a 64-bit value. -/
theorem littleEndianBytes_injective {v w : Nat} (hv : v < 2 ^ 64) (hw : w < 2 ^ 64)
    (h : littleEndianBytes v = littleEndianBytes w) : v = w := by
  have hx : ∀ x : Nat, littleEndianBytes x =
      [UInt8.ofNat (x / 256 ^ 0), UInt8.ofNat (x / 256 ^ 1), UInt8.ofNat (x / 256 ^ 2),
       UInt8.ofNat (x / 256 ^ 3), UInt8.ofNat (x / 256 ^ 4), UInt8.ofNat (x / 256 ^ 5),
       UInt8.ofNat (x / 256 ^ 6), UInt8.ofNat (x / 256 ^ 7)] := fun _ => rfl
  rw [hx, hx] at h
  simp only [List.cons.injEq, and_true] at h
  obtain ⟨h0, h1, h2, h3, h4, h5, h6, h7⟩ := h
  have t : ∀ a b : Nat, UInt8.ofNat a = UInt8.ofNat b → a % 256 = b % 256 :=
    fun a b hab => congrArg UInt8.toNat hab
  have g0 := t _ _ h0
  have g1 := t _ _ h1
  have g2 := t _ _ h2
  have g3 := t _ _ h3
  have g4 := t _ _ h4
  have g5 := t _ _ h5
  have g6 := t _ _ h6
  have g7 := t _ _ h7
  norm_num at g0 g1 g2 g3 g4 g5 g6 g7 hv hw
  omega

end binary

namespace limiter

open bytes sync pb pb_struct config

/-- The bytes `FarmHash` encodes: the little-endian bytes of the low half, then
those of the high half. -/
theorem FarmHash_eq (Hash128 : GoString → Nat × Nat) (b : Buffer) :
    FarmHash Hash128 b =
      hex.EncodeToString (binary.littleEndianBytes (Hash128 b.Bytes).1 ++
        binary.littleEndianBytes (Hash128 b.Bytes).2) := by
  rcases hH : Hash128 b.Bytes with ⟨lo, hi⟩
  simp only [FarmHash, hH]
  congr 1
  have h8 : (binary.littleEndianBytes lo).length = 8 := binary.littleEndianBytes_length lo
  rw [binary.PutUint64_eq, binary.PutUint64_eq, List.take_left' h8, List.drop_left' h8]
  simp

/-- C11: the time-bucket computation `(now / divider) * divider` of
`makeHumanReadableCacheKey` never overflows. For every `int64` time `now` and
every divider `d ≥ 1`, the value computed with 64-bit wrap-around arithmetic is
the exact integer `now - (now rem d)` (Go truncated remainder), it lies in the
`int64` range, and it is the bucket written into the key; and for `now ≥ 0` the
bucket `b` satisfies `b ≤ now < b + d` and `d` divides `b`. -/
theorem C11_bucket_no_overflow {Stats Rest : Type} (U : Divider) (b : Buffer)
    (pfx domain : GoString) (entries : List RateLimitDescriptor_Entry) (rest : Rest)
    (l : RateLimit Stats) (rl : RateLimitResponse_RateLimit) (now : Int)
    (hl : l.Limit = some rl) (hd : 1 ≤ U rl.Unit) (hn : isInt64 now) :
    (divInt64 now (U rl.Unit)).map (fun q => mulInt64 q (U rl.Unit)) =
      some (now - Int.tmod now (U rl.Unit)) ∧
    isInt64 (now - Int.tmod now (U rl.Unit)) ∧
    makeHumanReadableCacheKey U b pfx domain
        (some { Entries := entries.map some, rest := rest }) (some l) now =
      (⟨b.contents ++ specKey pfx domain entries (now - Int.tmod now (U rl.Unit))⟩, true) ∧
    (0 ≤ now →
      now - Int.tmod now (U rl.Unit) ≤ now ∧
      now < now - Int.tmod now (U rl.Unit) + U rl.Unit ∧
      U rl.Unit ∣ now - Int.tmod now (U rl.Unit)) := by
  have hmul : Int.tdiv now (U rl.Unit) * U rl.Unit = now - Int.tmod now (U rl.Unit) := by
    have h := Int.tdiv_add_tmod now (U rl.Unit)
    rw [Int.mul_comm] at h
    omega
  have hb := bucket_exact hn hd
  refine ⟨?_, ?_, ?_, ?_⟩
  · rw [hb.1, Option.map_some', hb.2, hmul]
  · rw [← hmul]
    exact (isInt64_tdiv hn hd).2
  · have h := makeHumanReadableCacheKey_eq U b pfx domain entries rest l rl now hl (by omega)
    rw [bucket_eq hn hd, hmul] at h
    exact h
  · intro h0
    have h1 := Int.tmod_nonneg (U rl.Unit) h0
    have h2 := Int.tmod_lt_of_pos now (show 0 < U rl.Unit by omega)
    refine ⟨by omega, by omega, ?_⟩
    rw [← hmul]
    exact Dvd.intro_left _ rfl

/-- C11, at `now = 9223372036854775807` (the largest `int64`) with unit DAY: the
bucket is `9223372036854720000`. -/
theorem C11_bucket_no_overflow_witness :
    isInt64 9223372036854775807 ∧ 1 ≤ utils.UnitToDivider RateLimitResponse_RateLimit_DAY ∧
    (divInt64 9223372036854775807 (utils.UnitToDivider RateLimitResponse_RateLimit_DAY)).map
        (fun q => mulInt64 q (utils.UnitToDivider RateLimitResponse_RateLimit_DAY)) =
      some 9223372036854720000 :=
  ⟨by decide, by decide,
    (C11_bucket_no_overflow utils.UnitToDivider ⟨[]⟩ (goStr "p") (goStr "d")
      [⟨goStr "k", goStr "v"⟩] ()
      (limitConfig 1 RateLimitResponse_RateLimit_DAY) ⟨1, RateLimitResponse_RateLimit_DAY⟩
      9223372036854775807 rfl (by decide) (by decide)).1.trans (by decide)⟩

/-- C12: for a fixed generator (starting string) and unit divider `d ≥ 1`, if
neither domain nor any entry key or value contains the separator `_`, then two
inputs `(domain1, entries1, now1)` and `(domain2, entries2, now2)` that give the
same human-readable key have `domain1 = domain2`, `entries1 = entries2` and
`(now1 / d) * d = (now2 / d) * d` (Go division); both calls do return a key. -/
theorem C12_conditional_injectivity {Stats Rest : Type} (U : Divider)
    (g : humanReadableCacheKeyGenerator) (d : Int) (l1 l2 : RateLimit Stats)
    (rl1 rl2 : RateLimitResponse_RateLimit) (domain1 domain2 : GoString)
    (entries1 entries2 : List RateLimitDescriptor_Entry) (rest1 rest2 : Rest)
    (now1 now2 : Int)
    (hl1 : l1.Limit = some rl1) (hl2 : l2.Limit = some rl2)
    (hU1 : U rl1.Unit = d) (hU2 : U rl2.Unit = d) (hd : 1 ≤ d)
    (hn1 : isInt64 now1) (hn2 : isInt64 now2)
    (hd1 : (95 : UInt8) ∉ domain1) (hd2 : (95 : UInt8) ∉ domain2)
    (hs1 : ∀ e ∈ entries1, (95 : UInt8) ∉ e.Key ∧ (95 : UInt8) ∉ e.Value)
    (hs2 : ∀ e ∈ entries2, (95 : UInt8) ∉ e.Key ∧ (95 : UInt8) ∉ e.Value)
    (h : (g.GenerateCacheKey U domain1 (some { Entries := entries1.map some, rest := rest1 })
            (some l1) now1).1.map CacheKey.Key =
         (g.GenerateCacheKey U domain2 (some { Entries := entries2.map some, rest := rest2 })
            (some l2) now2).1.map CacheKey.Key) :
    (g.GenerateCacheKey U domain1 (some { Entries := entries1.map some, rest := rest1 })
        (some l1) now1).1.isSome = true ∧
    (g.GenerateCacheKey U domain2 (some { Entries := entries2.map some, rest := rest2 })
        (some l2) now2).1.isSome = true ∧
    domain1 = domain2 ∧ entries1 = entries2 ∧
    Int.tdiv now1 d * d = Int.tdiv now2 d * d := by
  have e1 := humanReadable_eq U g domain1 entries1 rest1 l1 rl1 now1 hl1 (by omega)
  have e2 := humanReadable_eq U g domain2 entries2 rest2 l2 rl2 now2 hl2 (by omega)
  rw [hU1, bucket_eq hn1 hd] at e1
  rw [hU2, bucket_eq hn2 hd] at e2
  simp only [descriptorOf] at e1 e2
  rw [e1, e2] at h ⊢
  simp only [Option.map_some', Option.some.injEq] at h
  exact ⟨rfl, rfl, specKey_injective g.pfx domain1 domain2 entries1 entries2 _ _
    hd1 hd2 hs1 hs2 h⟩

/-- C12, on two calls with the same domain and entry at the times 61 and 90 with
unit MINUTE, whose keys are equal. -/
theorem C12_conditional_injectivity_witness :
    goStr "d" = goStr "d" ∧
    [(⟨goStr "k", goStr "v"⟩ : RateLimitDescriptor_Entry)] = [⟨goStr "k", goStr "v"⟩] ∧
    Int.tdiv 61 60 * 60 = Int.tdiv 90 60 * 60 :=
  (C12_conditional_injectivity utils.UnitToDivider
    (NewHumanReadableCacheKeyGenerator (goStr "p")) 60
    (limitConfig 5 RateLimitResponse_RateLimit_MINUTE)
    (limitConfig 7 RateLimitResponse_RateLimit_MINUTE)
    ⟨5, RateLimitResponse_RateLimit_MINUTE⟩ ⟨7, RateLimitResponse_RateLimit_MINUTE⟩
    (goStr "d") (goStr "d") [⟨goStr "k", goStr "v"⟩] [⟨goStr "k", goStr "v"⟩] () ()
    61 90 rfl rfl (by decide) (by decide) (by decide) (by decide) (by decide)
    (by decide) (by decide) (by decide) (by decide) (by decide)).2.2

/-- C13: `CRC32Hash` does not checksum its input. For every buffer `b`, the
digest made by `crc32.NewIEEE()` has consumed nothing and `Sum` appends its
checksum, the four bytes `00 00 00 00`, to the bytes of `b`; so `CRC32Hash(b)` is
the lowercase hex encoding of the bytes of `b` followed by `00000000`, its
length is `2 * len(b) + 8`, and `CRC32Hash` is injective. -/
theorem C13_crc32_appends_to_input (b : Buffer) :
    crc32.NewIEEE.Sum [] = [0, 0, 0, 0] ∧
    CRC32Hash b = hex.EncodeToString (b.Bytes ++ [0, 0, 0, 0]) ∧
    CRC32Hash b = hex.EncodeToString b.Bytes ++ goStr "00000000" ∧
    (∀ c ∈ CRC32Hash b, hex.isLowerHex c) ∧
    (CRC32Hash b).length = 2 * b.Len + 8 ∧
    (∀ b' : Buffer, CRC32Hash b = CRC32Hash b' → b = b') := by
  have h1 : ∀ x : Buffer, CRC32Hash x = hex.EncodeToString (x.Bytes ++ [0, 0, 0, 0]) :=
    fun _ => rfl
  refine ⟨rfl, h1 b, ?_, ?_, ?_, ?_⟩
  · rw [h1, hex.EncodeToString_append]
    rfl
  · rw [h1]
    exact hex.EncodeToString_isLowerHex _
  · rw [h1, hex.EncodeToString_length, List.length_append]
    simp only [Buffer.Bytes, Buffer.Len, List.length_cons, List.length_nil]
    omega
  · intro b' h
    rw [h1, h1] at h
    have := List.append_cancel_right (hex.EncodeToString_injective _ _ h)
    cases b; cases b'
    simp only [Buffer.Bytes] at this
    rw [this]

/-- C13, on the buffer holding `ab`: the key is `6162` followed by `00000000`. -/
theorem C13_crc32_appends_to_input_witness :
    CRC32Hash ⟨goStr "ab"⟩ = goStr "616200000000" :=
  (C13_crc32_appends_to_input ⟨goStr "ab"⟩).2.1.trans (by decide)

/-- C14: for every buffer `b`, with `(lo, hi)` the two halves returned by the
128-bit farm hash, `FarmHash(b)` is the hex encoding of the 8 little-endian
bytes of `lo` (16 characters) followed by the hex encoding of the 8
little-endian bytes of `hi` (16 characters), 32 lowercase hexadecimal characters
in all; and the map from 64-bit halves `(lo, hi)` to the key is injective. -/
theorem C14_farmHash_layout (Hash128 : GoString → Nat × Nat) (b : Buffer) :
    FarmHash Hash128 b =
      hex.EncodeToString (binary.littleEndianBytes (Hash128 b.Bytes).1) ++
        hex.EncodeToString (binary.littleEndianBytes (Hash128 b.Bytes).2) ∧
    (hex.EncodeToString (binary.littleEndianBytes (Hash128 b.Bytes).1)).length = 16 ∧
    (hex.EncodeToString (binary.littleEndianBytes (Hash128 b.Bytes).2)).length = 16 ∧
    (FarmHash Hash128 b).length = 32 ∧
    (∀ c ∈ FarmHash Hash128 b, hex.isLowerHex c) ∧
    (∀ (lo hi lo' hi' : Nat) (b' : Buffer),
      lo < 2 ^ 64 → hi < 2 ^ 64 → lo' < 2 ^ 64 → hi' < 2 ^ 64 →
      FarmHash (fun _ => (lo, hi)) b = FarmHash (fun _ => (lo', hi')) b' →
      lo = lo' ∧ hi = hi') := by
  refine ⟨?_, ?_, ?_, ?_, ?_, ?_⟩
  · rw [FarmHash_eq, hex.EncodeToString_append]
  · rw [hex.EncodeToString_length, binary.littleEndianBytes_length]
  · rw [hex.EncodeToString_length, binary.littleEndianBytes_length]
  · rw [FarmHash_eq, hex.EncodeToString_length, List.length_append,
      binary.littleEndianBytes_length, binary.littleEndianBytes_length]
  · rw [FarmHash_eq]
    exact hex.EncodeToString_isLowerHex _
  · intro lo hi lo' hi' b' hlo hhi hlo' hhi' h
    rw [FarmHash_eq, FarmHash_eq] at h
    have hb := hex.EncodeToString_injective _ _ h
    simp only at hb
    have hl : (binary.littleEndianBytes lo).length = (binary.littleEndianBytes lo').length := by
      rw [binary.littleEndianBytes_length, binary.littleEndianBytes_length]
    obtain ⟨h1, h2⟩ := List.append_inj hb hl
    exact ⟨binary.littleEndianBytes_injective hlo hlo' h1,
      binary.littleEndianBytes_injective hhi hhi' h2⟩

/-- C14, with halves `lo = 0x0102030405060708` and `hi = 0xa1a2a3a4a5a6a7a8`:
the key is `0807060504030201` followed by `a8a7a6a5a4a3a2a1`. -/
theorem C14_farmHash_layout_witness :
    FarmHash (fun _ => (0x0102030405060708, 0xa1a2a3a4a5a6a7a8)) ⟨goStr "ab"⟩ =
      goStr "0807060504030201a8a7a6a5a4a3a2a1" :=
  (C14_farmHash_layout (fun _ => (0x0102030405060708, 0xa1a2a3a4a5a6a7a8))
    ⟨goStr "ab"⟩).1.trans (by decide)

end limiter
